import Mathlib

/-!
Verification of the fdtgrep region-selection machinery (fdtgrep.c together
with libfdt/fdt_region.c).

The development shallowly embeds the source:

* the structure block of an FDT blob is a list of serialized items, each a
  tag plus its encoded byte size; `fdt_next_tag` resolves an offset to the
  tag starting there and the offset of the following tag;
* `fdt_add_region`, `fdt_include_supernodes`, `fdt_next_region` and
  `fdt_first_region` are translated from libfdt/fdt_region.c, with the
  struct-walk loop driven by explicit fuel (the C loop advances through the
  finite structure block);
* `check_type_include`, `h_include`, `fdt_find_regions`, `do_fdtgrep`,
  `value_add` and `scan_args` are translated from fdtgrep.c (the full
  featured revision of that file, the one containing the invert flag and
  the compatible-string fallback).

C `int` values that are used as booleans keep their integer type (`Int`)
where the distinction is load-bearing (the predicate returns -1 / 0 / 1 and
`if (val)` treats -1 as true).
-/

/-- Modelled from the spec: the five structure-block tag kinds.  `BeginNode`
carries the node name, `Prop` carries the property name (value grepping is a
non-goal, so property data is not modelled). -/
inductive FdtTag where
  | beginNode (name : String)
  | endNode
  | prop (name : String)
  | nop
  | fdtEnd
deriving DecidableEq

/-- Modelled from the spec: one serialized item of the structure block: a tag
together with its total encoded size in bytes (tag word plus name/data). -/
structure FdtItem where
  tag : FdtTag
  size : Nat
deriving DecidableEq

/-- Modelled from the spec: the parts of an FDT blob that the region walker
reads: the header offsets/sizes, the structure block as a list of serialized
items, and the `compatible` property lookup (`fdt_getprop(fdt, offset,
"compatible")`, an external libfdt call) as a function from node offset to
its nul-separated string list. -/
structure FdtBlob where
  off_dt_struct : Nat
  off_mem_rsvmap : Nat
  off_dt_strings : Nat
  size_dt_strings : Nat
  size_dt_struct : Nat
  items : List FdtItem
  compat : Nat → Option (List String)

/-- Modelled from the spec: `fdt_next_tag(fdt, offset, &nextoffset)` of the
external tag-stream layer.  Returns the tag starting at `off` and the
absolute offset of the following tag, or `none` if `off` is not the start
of an item. -/
def fdt_next_tag : List FdtItem → Nat → Option (FdtTag × Nat)
  | [], _ => none
  | it :: rest, off =>
    if off = 0 then some (it.tag, it.size)
    else if off < it.size then none
    else match fdt_next_tag rest (off - it.size) with
         | none => none
         | some (t, nx) => some (t, nx + it.size)

/-- A region of the blob selected for output (struct fdt_region). -/
structure FdtRegion where
  offset : Int
  size : Int
deriving DecidableEq

/-- Modelled from the spec: the FDT_REG_... flags of fdt_region.h, as a
record of booleans (the C code only ever tests individual bits). -/
structure FdtRegFlags where
  supernodes : Bool
  direct_subnodes : Bool
  all_subnodes : Bool
  add_string_tab : Bool
  add_mem_rsvmap : Bool
deriving DecidableEq

/-- All flags clear. -/
def flagsNone : FdtRegFlags :=
  { supernodes := false, direct_subnodes := false, all_subnodes := false,
    add_string_tab := false, add_mem_rsvmap := false }

/-- Modelled from the spec: the WANT_... inheritance scalar values; the
ordering 0 < 1 < 2 < 3 is load-bearing. -/
def WANT_NOTHING : Nat := 0

/-- WANT_NODES_ONLY: keep the node open/close tags, drop properties. -/
def WANT_NODES_ONLY : Nat := 1

/-- WANT_NODES_AND_PROPS: keep the node and its properties. -/
def WANT_NODES_AND_PROPS : Nat := 2

/-- WANT_ALL_NODES_AND_PROPS: keep the whole subtree with properties. -/
def WANT_ALL_NODES_AND_PROPS : Nat := 3

/-- Modelled from the spec: the static bound on the ancestor stack depth. -/
def FDT_MAX_DEPTH : Nat := 64

/-- Modelled from the spec: libfdt error codes; the exact numeric values are
not load-bearing, only their distinctness. -/
def FDT_ERR_NOTFOUND : Nat := 1

/-- NOSPACE: the path buffer would overflow. -/
def FDT_ERR_NOSPACE : Nat := 3

/-- BADSTRUCTURE: inconsistent tag stream. -/
def FDT_ERR_BADSTRUCTURE : Nat := 11

/-- BADLAYOUT: the string table offset precedes the struct region just
written. -/
def FDT_ERR_BADLAYOUT : Nat := 12

/-- TOODEEP: the ancestor stack depth would exceed the static bound. -/
def FDT_ERR_TOODEEP : Nat := 21

/-- The FDT_DONE_... phase marker values of fdt_region.c. -/
def FDT_DONE_NOTHING : Nat := 0

/-- Phase: memory reserve map emitted. -/
def FDT_DONE_MEM_RSVMAP : Nat := 1

/-- Phase: struct walk complete (END tag seen). -/
def FDT_DONE_STRUCT : Nat := 2

/-- Phase: trailing struct region flushed. -/
def FDT_DONE_END : Nat := 3

/-- Phase: string table emitted. -/
def FDT_DONE_STRINGS : Nat := 4

/-- Modelled from the spec: the FDT_IS_... type masks used by the predicate
layer (kind ∈ {Node, Prop, Compat, Any}). -/
def FDT_IS_NODE : Nat := 1

/-- FDT_IS_PROP mask. -/
def FDT_IS_PROP : Nat := 2

/-- FDT_IS_COMPAT mask. -/
def FDT_IS_COMPAT : Nat := 4

/-- FDT_IS_ANY: union of all kind bits. -/
def FDT_IS_ANY : Nat := 7

/-- One frame of the ancestor stack (struct fdt_region_state's stack).
`want` is the value to restore on the matching END_NODE, `offset` the struct
offset of the BEGIN_NODE tag, `included` the (integer) inclusion mark. -/
structure StackEntry where
  want : Nat
  offset : Nat
  included : Nat
deriving DecidableEq

instance : Inhabited StackEntry := ⟨⟨0, 0, 0⟩⟩

/-- The volatile pointers of the state machine (struct fdt_region_ptrs):
copied at the start of each tag iteration and committed back only if the
iteration fully succeeds. `path` models the path buffer contents up to the
write cursor `p->end` (so `p->end - path = path.length`). -/
structure FdtRegionPtrs where
  want : Nat
  path : String
  nextoffset : Nat
  depth : Int
  done : Nat
deriving DecidableEq

/-- The persistent state block (struct fdt_region_state), minus the per-call
output array, which the embedding threads separately as a list. -/
structure FdtRegionState where
  can_merge : Bool
  max_regions : Nat
  start : Int
  ptrs : FdtRegionPtrs
  stack : List StackEntry
deriving DecidableEq

/-- The include handler callback: (offset, FDT_IS_... type, data) → -1/0/1.
The data is the nul-separated string list handed to the handler (the full
node path for FDT_IS_NODE, the property name for FDT_IS_PROP). -/
abbrev HInclude := Nat → Nat → Option (List String) → Int

/-- fdt_add_region() of fdt_region.c.  The accumulated regions of the
current call are a list whose length plays the role of `info->count`; the
merge branch requires `can_merge && count && count <= max_regions` and the
new region's start to lie at or before the end of the last region; the
append branch requires `count < max_regions`; otherwise the add fails
(`none`, the C function's -1). -/
def fdt_add_region (max : Nat) (canMerge : Bool) (regs : List FdtRegion)
    (offset size : Int) : Option (List FdtRegion) :=
  match regs.getLast? with
  | some last =>
    if canMerge ∧ regs.length ≤ max ∧ offset ≤ last.offset + last.size then
      some (regs.dropLast ++ [{ offset := last.offset, size := offset + size - last.offset }])
    else if regs.length < max then
      some (regs ++ [{ offset := offset, size := size }])
    else none
  | none =>
    if regs.length < max then some (regs ++ [{ offset := offset, size := size }])
    else none

/-- Outcome of fdt_include_supernodes: either it paused because an add
failed (returning the partially updated permanent state, with the pointers
left for a retry), or it finished; `bad` is a modelling artifact for a
stack offset that does not resolve to a tag (never reached on states the
walker itself built). -/
inductive SupOut where
  | paused (regs : List FdtRegion) (stack : List StackEntry) (canMerge : Bool)
  | done (regs : List FdtRegion) (stack : List StackEntry) (canMerge : Bool)
  | bad
deriving DecidableEq

/-- The loop body of fdt_include_supernodes(), iterating the stack indices
`i ≤ depth`; `n` is the number of indices left.  For an unmarked frame the
FDT_BEGIN_NODE tag of that supernode is added as a region and the frame is
marked included; in any case the frame's `want` is forced up to
WANT_NODES_ONLY so the matching FDT_END_NODE is generated later. -/
def fdt_include_supernodes_go (blob : FdtBlob) (max : Nat) :
    Nat → Nat → List FdtRegion → List StackEntry → Bool → SupOut
  | 0, _, regs, stack, cm => .done regs stack cm
  | n + 1, i, regs, stack, cm =>
    let e := stack.getD i default
    if e.included = 0 then
      match fdt_next_tag blob.items e.offset with
      | none => .bad
      | some (_, stop) =>
        match fdt_add_region max cm regs
            ((blob.off_dt_struct : Int) + (e.offset : Int))
            ((stop : Int) - (e.offset : Int)) with
        | none => .paused regs stack cm
        | some regs' =>
          let e' : StackEntry := { e with included := 1 }
          let e'' : StackEntry := if e'.want = 0 then { e' with want := WANT_NODES_ONLY } else e'
          fdt_include_supernodes_go blob max n (i + 1) regs' (stack.set i e'') true
    else
      let e'' : StackEntry := if e.want = 0 then { e with want := WANT_NODES_ONLY } else e
      fdt_include_supernodes_go blob max n (i + 1) regs (stack.set i e'') cm

/-- fdt_include_supernodes() of fdt_region.c: walk the stack from the root
down to `depth` (inclusive). -/
def fdt_include_supernodes (blob : FdtBlob) (max : Nat) (regs : List FdtRegion)
    (stack : List StackEntry) (cm : Bool) (depth : Int) : SupOut :=
  fdt_include_supernodes_go blob max (depth + 1).toNat 0 regs stack cm

/-- The path-truncation of the FDT_END_NODE case of fdt_next_region():
`while (p.end > path && *--p.end != '/') ; *p.end = '\0'` — drop the last
path segment together with its leading slash.  Operates on the reversed
character list. -/
def dropLastSeg : List Char → List Char
  | [] => []
  | c :: rest => if c = '/' then rest else dropLastSeg rest

/-- Truncate a path buffer to just before its last slash (empty if none). -/
def path_pop (s : String) : String :=
  String.mk (dropLastSeg s.data.reverse).reverse

/-- Result of one execution of the `switch (tag)` block of
fdt_next_region(): either a fatal error, or the updated pointer copy, the
updated stack (the stack writes are permanent even if the iteration is
later abandoned), the inclusion decision for this tag and the `stop_at`
offset at which a region being closed must end. -/
inductive SwitchOut where
  | fail (err : Nat)
  | cont (p : FdtRegionPtrs) (stack : List StackEntry) (inc : Bool) (stopAt : Nat)
deriving DecidableEq

/-- The `switch (tag)` block of fdt_next_region(), translated case by case.
`offset` is the offset of the tag being processed and `next` the offset of
the following tag (`stop_at`'s initial value). -/
def fdt_region_switch (flags : FdtRegFlags) (pathLen : Nat) (hinc : HInclude)
    (stack : List StackEntry) (p : FdtRegionPtrs) (offset next : Nat) :
    FdtTag → SwitchOut
  | .prop name =>
    let val := hinc offset FDT_IS_PROP (some [name])
    if val = -1 then
      .cont p stack (decide (WANT_NODES_AND_PROPS ≤ p.want)) offset
    else
      let p := if flags.supernodes ∧ val ≠ 0 ∧ p.want = 0 then
                 { p with want := WANT_NODES_ONLY } else p
      .cont p stack (val != 0) offset
  | .nop =>
    .cont p stack (decide (WANT_NODES_AND_PROPS ≤ p.want)) offset
  | .beginNode name =>
    let p := { p with depth := p.depth + 1 }
    if p.depth = (FDT_MAX_DEPTH : Int) then .fail FDT_ERR_TOODEEP
    else if pathLen ≤ p.path.length + 2 + name.length then .fail FDT_ERR_NOSPACE
    else
      let p := { p with path := (if p.path.length ≠ 1 then p.path ++ "/" else p.path) ++ name }
      let savedWant := p.want
      let pstop : FdtRegionPtrs × Nat :=
        if p.want = WANT_NODES_ONLY ∨ (¬flags.direct_subnodes ∧ ¬flags.all_subnodes) then
          ({ p with want := WANT_NOTHING }, offset)
        else (p, next)
      let p := pstop.1
      let val := hinc offset FDT_IS_NODE (some [p.path])
      let pstop : FdtRegionPtrs × Nat :=
        if val ≠ 0 then
          ({ p with want := if flags.all_subnodes then WANT_ALL_NODES_AND_PROPS
                            else WANT_NODES_AND_PROPS }, pstop.2)
        else if p.want ≠ 0 then
          ({ p with want := if p.want ≠ WANT_ALL_NODES_AND_PROPS then p.want - 1 else p.want },
           pstop.2)
        else (p, offset)
      let p := pstop.1
      let stack := stack.set p.depth.toNat
        { want := savedWant, offset := offset, included := p.want }
      .cont p stack (p.want != 0) pstop.2
  | .endNode =>
    let inc := p.want != 0
    if p.depth < 0 then .fail FDT_ERR_BADSTRUCTURE
    else
      let stopAt := if p.want = 0 ∧ ¬flags.direct_subnodes then offset else next
      let p := { p with want := (stack.getD p.depth.toNat default).want }
      let p := { p with depth := p.depth - 1, path := path_pop p.path }
      .cont p stack inc stopAt
  | .fdtEnd =>
    .cont { p with done := FDT_DONE_STRUCT } stack true next

/-- Outcome of the struct-walk loop of fdt_next_region(): `paused` is the
early `return 0` taken when a region add fails (the caller's array is
full), `finished` means the END tag has been consumed. -/
inductive LoopOut where
  | paused (regs : List FdtRegion) (st : FdtRegionState)
  | finished (regs : List FdtRegion) (st : FdtRegionState)
  | fail (err : Nat)
  | noFuel
deriving DecidableEq

/-- The `while (info->ptrs.done < FDT_DONE_STRUCT)` loop of
fdt_next_region().  Each iteration copies the pointers, resolves and
processes one tag, then opens a region (after pulling in supernodes) or
closes the current one, and commits the pointer copy only on full success;
on an add failure it returns with the pointers untouched so the next call
retries the same tag. -/
def fdt_struct_loop (blob : FdtBlob) (hinc : HInclude) (flags : FdtRegFlags)
    (pathLen : Nat) : Nat → List FdtRegion → FdtRegionState → LoopOut
  | 0, regs, st =>
    if st.ptrs.done < FDT_DONE_STRUCT then .noFuel else .finished regs st
  | fuel + 1, regs, st =>
    if st.ptrs.done < FDT_DONE_STRUCT then
      let offset := st.ptrs.nextoffset
      match fdt_next_tag blob.items offset with
      | none => .fail FDT_ERR_BADSTRUCTURE
      | some (tag, next) =>
        match fdt_region_switch flags pathLen hinc st.stack
            { st.ptrs with nextoffset := next } offset next tag with
        | .fail e => .fail e
        | .cont p stack' inc stopAt =>
          let st := { st with stack := stack' }
          if inc ∧ st.start = -1 then
            if flags.supernodes then
              match fdt_include_supernodes blob st.max_regions regs st.stack
                  st.can_merge p.depth with
              | .bad => .fail FDT_ERR_BADSTRUCTURE
              | .paused regs' stack2 cm2 =>
                .paused regs' { st with stack := stack2, can_merge := cm2 }
              | .done regs' stack2 cm2 =>
                fdt_struct_loop blob hinc flags pathLen fuel regs'
                  { st with stack := stack2, can_merge := cm2,
                            start := (offset : Int), ptrs := p }
            else
              fdt_struct_loop blob hinc flags pathLen fuel regs
                { st with start := (offset : Int), ptrs := p }
          else if ¬inc ∧ st.start ≠ -1 then
            match fdt_add_region st.max_regions st.can_merge regs
                ((blob.off_dt_struct : Int) + st.start)
                ((stopAt : Int) - st.start) with
            | none => .paused regs st
            | some regs' =>
              fdt_struct_loop blob hinc flags pathLen fuel regs'
                { st with start := -1, can_merge := true, ptrs := p }
          else
            fdt_struct_loop blob hinc flags pathLen fuel regs { st with ptrs := p }
    else .finished regs st

/-- Result of one fdt_first_region / fdt_next_region call: `ok` carries the
regions written into the caller's array this call (return value 0),
`notFound` is -FDT_ERR_NOTFOUND (terminal), `fail` any other error;
`noFuel` is the fuel-exhaustion artifact of the embedding. -/
inductive CallOut where
  | ok (regs : List FdtRegion) (st : FdtRegionState)
  | notFound (st : FdtRegionState)
  | fail (err : Nat)
  | noFuel
deriving DecidableEq

/-- The final `return info->count > 0 ? 0 : -FDT_ERR_NOTFOUND` of
fdt_next_region(). -/
def fdt_region_ret (regs : List FdtRegion) (st : FdtRegionState) : CallOut :=
  if regs = [] then .notFound st else .ok regs st

/-- The string-table block at the end of fdt_next_region(): clear
`can_merge`, check the layout, then add the string table region. -/
def fdt_region_strings (blob : FdtBlob) (flags : FdtRegFlags)
    (regs : List FdtRegion) (st : FdtRegionState) : CallOut :=
  if st.ptrs.done < FDT_DONE_STRINGS ∧ flags.add_string_tab then
    if blob.off_dt_strings < blob.off_dt_struct + st.ptrs.nextoffset then
      .fail FDT_ERR_BADLAYOUT
    else
      match fdt_add_region st.max_regions false regs
          (blob.off_dt_strings : Int) (blob.size_dt_strings : Int) with
      | none => .ok regs { st with can_merge := false }
      | some regs' =>
        fdt_region_ret regs'
          { st with can_merge := false,
                    ptrs := { st.ptrs with done := st.ptrs.done + 1 } }
  else fdt_region_ret regs st

/-- The trailing-region block of fdt_next_region(): after the struct walk,
check that the walk ended exactly at the declared struct size, then flush
the region that ends at the END tag. -/
def fdt_region_finish (blob : FdtBlob) (flags : FdtRegFlags)
    (regs : List FdtRegion) (st : FdtRegionState) : CallOut :=
  if st.ptrs.done < FDT_DONE_END then
    if st.ptrs.nextoffset ≠ blob.size_dt_struct then .fail FDT_ERR_BADSTRUCTURE
    else
      match fdt_add_region st.max_regions st.can_merge regs
          ((blob.off_dt_struct : Int) + st.start)
          ((st.ptrs.nextoffset : Int) - st.start) with
      | none => .ok regs st
      | some regs' =>
        fdt_region_strings blob flags regs'
          { st with ptrs := { st.ptrs with done := st.ptrs.done + 1 } }
  else fdt_region_strings blob flags regs st

/-- The struct-walk part of fdt_next_region(): the loop, the trailing
struct region and the string table, with `fuel` bounding the number of loop
iterations. -/
def fdt_next_region_struct (blob : FdtBlob) (hinc : HInclude)
    (flags : FdtRegFlags) (pathLen fuel : Nat) (regs : List FdtRegion)
    (st : FdtRegionState) : CallOut :=
  match fdt_struct_loop blob hinc flags pathLen fuel regs st with
  | .noFuel => .noFuel
  | .fail e => .fail e
  | .paused regs' st' => .ok regs' st'
  | .finished regs' st' => fdt_region_finish blob flags regs' st'

/-- fdt_next_region() of fdt_region.c: the memory-reserve-map phase, then
the struct walk and the closing phases. -/
def fdt_next_region (blob : FdtBlob) (hinc : HInclude) (flags : FdtRegFlags)
    (pathLen : Nat) (fuel : Nat) (st : FdtRegionState) : CallOut :=
  if st.ptrs.done < FDT_DONE_MEM_RSVMAP ∧ flags.add_mem_rsvmap then
    match fdt_add_region st.max_regions st.can_merge []
        (blob.off_mem_rsvmap : Int)
        ((blob.off_dt_struct : Int) - (blob.off_mem_rsvmap : Int)) with
    | none => .ok [] st
    | some regs1 =>
      fdt_next_region_struct blob hinc flags pathLen fuel regs1
        { st with can_merge := false,
                  ptrs := { st.ptrs with done := FDT_DONE_MEM_RSVMAP } }
  else fdt_next_region_struct blob hinc flags pathLen fuel [] st

/-- The initial region state set up by fdt_first_region(), with the
caller-visible choice of per-call capacity made explicit (the C function
always chooses `max_regions = 1`). -/
def fdt_region_state_init (m : Nat) : FdtRegionState :=
  { can_merge := true, max_regions := m, start := -1,
    ptrs := { want := WANT_NOTHING, path := "", nextoffset := 0,
              depth := -1, done := FDT_DONE_NOTHING },
    stack := List.replicate FDT_MAX_DEPTH default }

/-- fdt_first_region() of fdt_region.c: set up the state (fixing
`max_regions` to 1) and fall through to fdt_next_region(). -/
def fdt_first_region (blob : FdtBlob) (hinc : HInclude) (flags : FdtRegFlags)
    (pathLen : Nat) (fuel : Nat) : CallOut :=
  fdt_next_region blob hinc flags pathLen fuel (fdt_region_state_init 1)

/-- A value in the grep list (struct value_node): the FDT_IS_... mask of
kinds this rule applies to, the polarity (true = include), and the literal
to match. -/
structure ValueNode where
  vtype : Nat
  inc : Bool
  str : String
deriving DecidableEq

/-- The output formats of fdtgrep (enum output_t of the full revision). -/
inductive OutputFormat where
  | dts
  | dtb
  | bin
deriving DecidableEq

/-- The members of struct display_info read or written by the code under
verification (the output file handle and name are I/O boundary state and
are not modelled). -/
structure DisplayInfo where
  output : OutputFormat
  all : Bool
  region_list : Bool
  flags : FdtRegFlags
  list_strings : Bool
  show_offset : Bool
  show_addr : Bool
  header : Bool
  diff : Bool
  show_dts_version : Bool
  types_inc : Nat
  types_exc : Nat
  invert : Bool
  value_head : List ValueNode
deriving DecidableEq

/-- The zero-initialised display_info of main(), with the default
FDT_REG_SUPERNODES flag set. -/
def disp_default : DisplayInfo :=
  { output := .dts, all := false, region_list := false,
    flags := { flagsNone with supernodes := true },
    list_strings := false, show_offset := false, show_addr := false,
    header := false, diff := false, show_dts_version := false,
    types_inc := 0, types_exc := 0, invert := false, value_head := [] }

/-- Modelled from the spec: fdt_stringlist_contains() of external libfdt —
whether the nul-separated list contains the literal; a NULL list (here
`none`) matches nothing. -/
def fdt_stringlist_contains (data : Option (List String)) (s : String) : Bool :=
  match data with
  | none => false
  | some l => l.contains s

/-- The rule-scanning loop of check_type_include().  Returns `(some 1, _)`
on the first matching Include rule, otherwise `(none, nm)` where `nm` is
the final `none_match` mask (a kind bit is cleared when an Exclude literal
of that kind matched).  `nm &&& (FDT_IS_ANY ^^^ (vtype &&& FDT_IS_ANY))`
is C's `none_match &= ~val->type` restricted to the three kind bits, which
is equal to it because `none_match ⊆ FDT_IS_ANY` throughout. -/
def check_type_include_go (type : Nat) (data : Option (List String)) :
    List ValueNode → Nat → Option Int × Nat
  | [], nm => (none, nm)
  | v :: rest, nm =>
    if type &&& v.vtype = 0 then check_type_include_go type data rest nm
    else if fdt_stringlist_contains data v.str ∧ v.inc then (some 1, nm)
    else if fdt_stringlist_contains data v.str then
      check_type_include_go type data rest (nm &&& (FDT_IS_ANY ^^^ (v.vtype &&& FDT_IS_ANY)))
    else check_type_include_go type data rest nm

/-- check_type_include() of fdtgrep.c (the full revision, with the two
FDT_IS_NODE deferral cases that hand the decision to the compatible-string
fallback): 0 to exclude, 1 to include, -1 if no information is
available. -/
def check_type_include (disp : DisplayInfo) (type : Nat)
    (data : Option (List String)) : Int :=
  if (disp.types_inc ||| disp.types_exc) &&& type = 0 then -1
  else
    match check_type_include_go type data disp.value_head FDT_IS_ANY with
    | (some r, _) => r
    | (none, nm) =>
      if type &&& disp.types_exc ≠ 0 ∧ nm &&& type ≠ 0 then
        if type = FDT_IS_NODE ∧ disp.types_exc = FDT_IS_ANY then -1 else 1
      else if type = FDT_IS_NODE ∧ disp.types_inc = FDT_IS_ANY then -1
      else 0

/-- h_include() of fdtgrep.c (full revision): classify, fall back to the
node's `compatible` property when a node classification is `DontKnow`, then
apply the global invert flag to definite answers. -/
def h_include (disp : DisplayInfo) (compatOf : Nat → Option (List String))
    (offset : Nat) (type : Nat) (data : Option (List String)) : Int :=
  let inc := check_type_include disp type data
  let inc :=
    if inc = -1 ∧ type = FDT_IS_NODE then
      check_type_include disp FDT_IS_COMPAT (compatOf offset)
    else inc
  if inc = 1 then (if disp.invert then 0 else 1)
  else if inc = 0 then (if disp.invert then 1 else 0)
  else inc

/-- The include handler of a display configuration over a given blob. -/
def h_include_of (disp : DisplayInfo) (blob : FdtBlob) : HInclude :=
  fun offset type data => h_include disp blob.compat offset type data

/-- Result of driving fdt_first_region/fdt_next_region to completion. -/
inductive RunOut where
  | found (regs : List FdtRegion)
  | fail (err : Nat)
  | noFuel
deriving DecidableEq

/-- The call loop of fdt_find_regions() of fdtgrep.c, generalised over the
initial state (fdt_find_regions starts from fdt_first_region's state): call
fdt_next_region repeatedly, appending each call's regions, until it returns
-FDT_ERR_NOTFOUND. -/
def fdt_region_run_loop (blob : FdtBlob) (hinc : HInclude) (flags : FdtRegFlags)
    (pathLen fuelTags : Nat) : Nat → FdtRegionState → RunOut
  | 0, _ => .noFuel
  | calls + 1, st =>
    match fdt_next_region blob hinc flags pathLen fuelTags st with
    | .ok regs st' =>
      match fdt_region_run_loop blob hinc flags pathLen fuelTags calls st' with
      | .found l => .found (regs ++ l)
      | .fail e => .fail e
      | .noFuel => .noFuel
    | .notFound _ => .found []
    | .fail e => .fail e
    | .noFuel => .noFuel

/-- fdt_find_regions() of fdtgrep.c: fdt_first_region followed by
fdt_next_region until -FDT_ERR_NOTFOUND, collecting every region written
(the C caller's `max_regions` argument is not consulted by this loop; the
returned region count is the length of the result). -/
def fdt_find_regions (blob : FdtBlob) (hinc : HInclude) (flags : FdtRegFlags)
    (pathLen fuelTags fuelCalls : Nat) : RunOut :=
  fdt_region_run_loop blob hinc flags pathLen fuelTags fuelCalls
    (fdt_region_state_init 1)

/-- Pause-tolerant run with a caller-chosen per-call region capacity `m`:
the capacity-1 instance is exactly `fdt_find_regions`.  This is the
spec-side device for comparing a one-slot-per-call run with a
larger-array-per-call run. -/
def fdt_region_run_cap (blob : FdtBlob) (hinc : HInclude) (flags : FdtRegFlags)
    (pathLen fuelTags fuelCalls m : Nat) : RunOut :=
  fdt_region_run_loop blob hinc flags pathLen fuelTags fuelCalls
    (fdt_region_state_init m)

/-- Result of do_fdtgrep()'s region-gathering double pass: the final region
list, the capacity (`max_regions`) of the final pass, and the number of
passes run. -/
inductive DriverOut where
  | ok (regs : List FdtRegion) (capacity : Nat) (passes : Nat)
  | err
  | noFuel
deriving DecidableEq

/-- The region-gathering loop of do_fdtgrep() of fdtgrep.c: `count` starts
at 100; up to two passes; each pass allocates `count` regions and runs
fdt_find_regions; if the number of regions found fits the allocation the
loop stops, otherwise the next (and last) pass re-runs with the reported
count as the new allocation. -/
def do_fdtgrep_regions (disp : DisplayInfo) (blob : FdtBlob)
    (pathLen fuelTags fuelCalls : Nat) : DriverOut :=
  match fdt_find_regions blob (h_include_of disp blob) disp.flags
      pathLen fuelTags fuelCalls with
  | .fail _ => .err
  | .noFuel => .noFuel
  | .found l1 =>
    if l1.length ≤ 100 then .ok l1 100 1
    else
      match fdt_find_regions blob (h_include_of disp blob) disp.flags
          pathLen fuelTags fuelCalls with
      | .fail _ => .err
      | .noFuel => .noFuel
      | .found l2 => .ok l2 l1.length 2

/-- value_add() of fdtgrep.c: record the kind mask in the include or
exclude set, reject a kind that is now in both sets, and push the new rule
at the head of the list.  `none` models the error return (-1). -/
def value_add (disp : DisplayInfo) (type : Nat) (inc : Bool) (str : String) :
    Option DisplayInfo :=
  let disp :=
    if inc then { disp with types_inc := disp.types_inc ||| type }
    else { disp with types_exc := disp.types_exc ||| type }
  if disp.types_inc &&& disp.types_exc &&& type ≠ 0 then none
  else some { disp with value_head := ⟨type, inc, str⟩ :: disp.value_head }

/-- The command-line options handled by scan_args() of fdtgrep.c (full
revision), already parsed by getopt (command-line tokenisation is an
external boundary).  The output-file option only records a name and is
omitted. -/
inductive GrepOpt where
  | showAddr
  | showAll
  | includeCompat (s : String)
  | excludeCompat (s : String)
  | diffMarks
  | enterNode
  | showOffset
  | includeMatch (s : String)
  | excludeMatch (s : String)
  | showHeader
  | listRegions
  | listStrings
  | includeMem
  | includeNode (s : String)
  | excludeNode (s : String)
  | includeProp (s : String)
  | excludeProp (s : String)
  | showSubnodes
  | skipSupernodes
  | showStringtab
  | outFormat (s : String)
  | invertMatch
  | showVersion
deriving DecidableEq

/-- One iteration of scan_args()'s option loop: update the display state
and, for the rule-adding options, call value_add; `none` models usage()
aborting the program. -/
def scan_args_step (disp : DisplayInfo) : GrepOpt → Option DisplayInfo
  | .showAddr => some { disp with show_addr := true }
  | .showAll => some { disp with all := true }
  | .excludeCompat s => value_add disp FDT_IS_COMPAT false s
  | .includeCompat s => value_add disp FDT_IS_COMPAT true s
  | .diffMarks => some { disp with diff := true }
  | .enterNode => some { disp with flags := { disp.flags with direct_subnodes := true } }
  | .showOffset => some { disp with show_offset := true }
  | .excludeMatch s => value_add disp FDT_IS_ANY false s
  | .includeMatch s => value_add disp FDT_IS_ANY true s
  | .showHeader => some { disp with header := true }
  | .listRegions => some { disp with region_list := true }
  | .listStrings => some { disp with list_strings := true }
  | .includeMem => some { disp with flags := { disp.flags with add_mem_rsvmap := true } }
  | .excludeNode s => value_add disp FDT_IS_NODE false s
  | .includeNode s => value_add disp FDT_IS_NODE true s
  | .excludeProp s => value_add disp FDT_IS_PROP false s
  | .includeProp s => value_add disp FDT_IS_PROP true s
  | .showSubnodes => some { disp with flags := { disp.flags with all_subnodes := true } }
  | .skipSupernodes => some { disp with flags := { disp.flags with supernodes := false } }
  | .showStringtab => some { disp with flags := { disp.flags with add_string_tab := true } }
  | .outFormat s =>
    if s = "dtb" then some { disp with output := .dtb }
    else if s = "dts" then some { disp with output := .dts }
    else if s = "bin" then some { disp with output := .bin }
    else none
  | .invertMatch => some { disp with invert := true }
  | .showVersion => some { disp with show_dts_version := true }

/-- scan_args() of fdtgrep.c: process every option, then reject the invert
flag in combination with any exclude condition (`-v has no meaning when
used with 'exclude' conditions`). -/
def scan_args (disp : DisplayInfo) : List GrepOpt → Option DisplayInfo
  | [] => if disp.invert ∧ disp.types_exc ≠ 0 then none else some disp
  | o :: rest =>
    match scan_args_step disp o with
    | none => none
    | some d => scan_args d rest

/-- Outcome of a whole fdtgrep invocation: either the setup was rejected
(usage() called, exit code nonzero, no region walk performed), or the grep
ran with the configured display state. -/
inductive MainOut where
  | usageError
  | ran (out : DriverOut)
deriving DecidableEq

/-- main() of fdtgrep.c, at the granularity the claims need: defaults with
FDT_REG_SUPERNODES, scan_args, the dtb-output flag forcing, then
do_fdtgrep's region gathering.  Positional arguments behave like `-g` and
are represented by `includeMatch` options. -/
def fdtgrep_main (opts : List GrepOpt) (blob : FdtBlob)
    (pathLen fuelTags fuelCalls : Nat) : MainOut :=
  match scan_args disp_default opts with
  | none => .usageError
  | some disp =>
    let disp :=
      if disp.output = .dtb then
        { disp with header := true,
                    flags := { disp.flags with add_mem_rsvmap := true,
                                               add_string_tab := true } }
      else disp
    .ran (do_fdtgrep_regions disp blob pathLen fuelTags fuelCalls)

/-- Whether a filter rule applies to this kind and its literal matches the
data: the per-rule test of check_type_include's scanning loop. -/
def rule_matches (type : Nat) (data : Option (List String)) (v : ValueNode) : Bool :=
  (type &&& v.vtype != 0) && fdt_stringlist_contains data v.str

/-- The union of the kind masks of the Include-polarity rules (what
value_add accumulates into types_inc). -/
def rulesIncMask : List ValueNode → Nat
  | [] => 0
  | v :: rest => (if v.inc then v.vtype else 0) ||| rulesIncMask rest

/-- The union of the kind masks of the Exclude-polarity rules (what
value_add accumulates into types_exc). -/
def rulesExcMask : List ValueNode → Nat
  | [] => 0
  | v :: rest => (if v.inc then 0 else v.vtype) ||| rulesExcMask rest

/-- A well-formed display configuration: the type masks agree with the rule
list (as value_add maintains) and every rule kind is one of the four masks
Node, Prop, Compat, Any. -/
def disp_wf (disp : DisplayInfo) : Prop :=
  disp.types_inc = rulesIncMask disp.value_head ∧
  disp.types_exc = rulesExcMask disp.value_head ∧
  ∀ v ∈ disp.value_head, v.vtype = 1 ∨ v.vtype = 2 ∨ v.vtype = 4 ∨ v.vtype = 7

instance (disp : DisplayInfo) : Decidable (disp_wf disp) := by
  unfold disp_wf; infer_instance

/-- The predicate as the claim states it: Include when some Include rule of
an overlapping kind matches; else Include when some Exclude rule is active
for this kind and no Exclude literal matched; else Exclude; DontKnow
exactly when no rule mentions this kind. -/
def check_type_include_claim (disp : DisplayInfo) (type : Nat)
    (data : Option (List String)) : Int :=
  if disp.value_head.all (fun v => type &&& v.vtype == 0) then -1
  else if disp.value_head.any (fun v => rule_matches type data v && v.inc) then 1
  else if disp.value_head.any (fun v => (type &&& v.vtype != 0) && !v.inc) &&
          !disp.value_head.any (fun v => rule_matches type data v && !v.inc) then 1
  else 0

/-- The claim amended by what the code actually does: identical to
`check_type_include_claim` except for the two Node-kind deferral cases, in
which the answer is DontKnow (so the compatible-string fallback decides):
when the winning Exclude path would fire but the exclude mask is exactly
Any, and when the final Exclude answer would be given but the include mask
is exactly Any. -/
def check_type_include_amended (disp : DisplayInfo) (type : Nat)
    (data : Option (List String)) : Int :=
  if disp.value_head.all (fun v => type &&& v.vtype == 0) then -1
  else if disp.value_head.any (fun v => rule_matches type data v && v.inc) then 1
  else if disp.value_head.any (fun v => (type &&& v.vtype != 0) && !v.inc) &&
          !disp.value_head.any (fun v => rule_matches type data v && !v.inc) then
    (if type = FDT_IS_NODE ∧ disp.types_exc = FDT_IS_ANY then -1 else 1)
  else
    (if type = FDT_IS_NODE ∧ disp.types_inc = FDT_IS_ANY then -1 else 0)

lemma lor_eq_zero_iff (a b : Nat) : a ||| b = 0 ↔ a = 0 ∧ b = 0 := by
  constructor
  · intro h
    refine ⟨Nat.eq_of_testBit_eq fun i => ?_, Nat.eq_of_testBit_eq fun i => ?_⟩ <;>
    · have h2 := congrArg (fun x => Nat.testBit x i) h
      simp only [Nat.testBit_lor, Nat.zero_testBit, Bool.or_eq_false_iff] at h2
      simp [h2.1, h2.2]
  · rintro ⟨rfl, rfl⟩; rfl

lemma land_lor_eq_zero_iff (t a b : Nat) :
    t &&& (a ||| b) = 0 ↔ t &&& a = 0 ∧ t &&& b = 0 := by
  rw [Nat.and_or_distrib_left, lor_eq_zero_iff]

lemma incMask_disjoint_iff (t : Nat) (l : List ValueNode) :
    t &&& rulesIncMask l = 0 ↔ ∀ v ∈ l, v.inc = true → t &&& v.vtype = 0 := by
  induction l with
  | nil => simp [rulesIncMask]
  | cons v rest ih =>
    rw [rulesIncMask, land_lor_eq_zero_iff]
    cases hv : v.inc <;> simp [hv, ih]

lemma excMask_disjoint_iff (t : Nat) (l : List ValueNode) :
    t &&& rulesExcMask l = 0 ↔ ∀ v ∈ l, v.inc = false → t &&& v.vtype = 0 := by
  induction l with
  | nil => simp [rulesExcMask]
  | cons v rest ih =>
    rw [rulesExcMask, land_lor_eq_zero_iff]
    cases hv : v.inc <;> simp [hv, ih]

lemma check_type_include_go_fst (type : Nat) (data : Option (List String))
    (l : List ValueNode) (nm : Nat) :
    (check_type_include_go type data l nm).1 =
      if l.any (fun v => rule_matches type data v && v.inc) then some 1 else none := by
  induction l generalizing nm with
  | nil => simp [check_type_include_go]
  | cons v rest ih =>
    simp only [check_type_include_go, List.any_cons]
    by_cases h1 : type &&& v.vtype = 0
    · simp [h1, rule_matches, ih]
    · by_cases h2 : fdt_stringlist_contains data v.str = true
      · by_cases h3 : v.inc = true
        · simp [h1, h2, h3, rule_matches]
        · simp only [if_neg h1]
          rw [if_neg (by simp [h3]), if_pos h2, ih]
          simp [rule_matches, h1, h2, h3]
      · simp only [if_neg h1]
        rw [if_neg (by simp [h2]), if_neg (by simp [h2]), ih]
        simp [rule_matches, h2]

lemma check_type_include_go_snd (type : Nat) (data : Option (List String))
    (l : List ValueNode) (nm : Nat)
    (ht : type = 1 ∨ type = 2 ∨ type = 4)
    (hl : ∀ v ∈ l, v.vtype = 1 ∨ v.vtype = 2 ∨ v.vtype = 4 ∨ v.vtype = 7)
    (hnone : l.any (fun v => rule_matches type data v && v.inc) = false) :
    ((check_type_include_go type data l nm).2 &&& type = 0 ↔
      nm &&& type = 0 ∨ l.any (fun v => rule_matches type data v && !v.inc) = true) := by
  induction l generalizing nm with
  | nil => simp [check_type_include_go]
  | cons v rest ih =>
    simp only [List.any_cons, Bool.or_eq_false_iff] at hnone
    have hrest := fun nm => ih nm (fun w hw => hl w (List.mem_cons_of_mem v hw)) hnone.2
    simp only [check_type_include_go, List.any_cons]
    by_cases h1 : type &&& v.vtype = 0
    · rw [if_pos h1, hrest nm]
      simp [rule_matches, h1]
    · by_cases h2 : fdt_stringlist_contains data v.str = true
      · have h3 : v.inc = false := by
          have hrm : rule_matches type data v = true := by
            simp only [rule_matches, h2, Bool.and_true]
            simpa using h1
          simpa [hrm] using hnone.1
        rw [if_neg h1, if_neg (by simp [h3]), if_pos h2, hrest _]
        have hkey : (7 ^^^ (v.vtype &&& 7)) &&& type = 0 := by
          rcases hl v (List.mem_cons_self v rest) with hv | hv | hv | hv <;>
            rcases ht with rfl | rfl | rfl <;> rw [hv] at h1 ⊢ <;>
            first
            | decide
            | exact absurd (by decide) h1
        have hz : (nm &&& (7 ^^^ (v.vtype &&& 7))) &&& type = 0 := by
          rw [Nat.land_assoc, hkey]
          simp
        simp [FDT_IS_ANY, hz, rule_matches, h2, h3, Bool.not_eq_false,
          show (type &&& v.vtype != 0) = true by simpa using h1]
      · rw [if_neg h1, if_neg (by simp [h2]), if_neg (by simp [h2]), hrest nm]
        simp [rule_matches, h2]

lemma mention_iff (disp : DisplayInfo) (type : Nat)
    (hinc : disp.types_inc = rulesIncMask disp.value_head)
    (hexc : disp.types_exc = rulesExcMask disp.value_head) :
    ((disp.types_inc ||| disp.types_exc) &&& type = 0 ↔
      disp.value_head.all (fun v => type &&& v.vtype == 0) = true) := by
  rw [hinc, hexc, Nat.land_comm, land_lor_eq_zero_iff]
  rw [incMask_disjoint_iff, excMask_disjoint_iff, List.all_eq_true]
  constructor
  · rintro ⟨ha, hb⟩ v hv
    cases hincv : v.inc
    · simpa using hb v hv hincv
    · simpa using ha v hv hincv
  · intro h
    constructor <;> intro v hv _ <;> simpa using h v hv

lemma exc_active_iff (disp : DisplayInfo) (type : Nat)
    (hexc : disp.types_exc = rulesExcMask disp.value_head) :
    (type &&& disp.types_exc ≠ 0 ↔
      disp.value_head.any (fun v => (type &&& v.vtype != 0) && !v.inc) = true) := by
  rw [hexc]
  constructor
  · intro h
    by_contra hno
    apply h
    rw [excMask_disjoint_iff]
    intro v hv hincv
    by_contra hne
    refine hno (List.any_eq_true.mpr ⟨v, hv, ?_⟩)
    simp only [hincv, Bool.not_false, Bool.and_true]
    simpa using hne
  · intro h hz
    obtain ⟨v, hv, hp⟩ := List.any_eq_true.mp h
    simp only [Bool.and_eq_true, bne_iff_ne, ne_eq, Bool.not_eq_true'] at hp
    exact hp.1 ((excMask_disjoint_iff type _).mp hz v hv hp.2)

/-- The concrete filter set of the C4 counterexample: a single `-G x` rule
(exclude anything matching "x"). -/
def c4_disp : DisplayInfo :=
  { disp_default with
      types_exc := 7
      value_head := [{ vtype := 7, inc := false, str := "x" }] }

/-- C4: the claim's characterisation of check_type_include fails on the
code.  With the single rule `-G x` (exclude anything matching "x"), a node
query that matches nothing should, by the claim, be classified Include
(exclusion means include everything unmentioned), and it is certainly
mentioned by the rule set; the code instead returns DontKnow (-1),
deferring to the compatible-string fallback. -/
theorem C4_counterexample :
    check_type_include c4_disp FDT_IS_NODE (some ["y"]) = -1 ∧
    check_type_include_claim c4_disp FDT_IS_NODE (some ["y"]) = 1 ∧
    disp_wf c4_disp :=
  ⟨by decide, by decide, by decide⟩

/-- C4 (amended): for every well-formed filter set and every single-kind
query, check_type_include behaves exactly as the claim states except in the
two Node-kind deferral cases (exclude mask exactly Any on the
exclude-wins path, include mask exactly Any on the final Exclude path),
where it returns DontKnow so that the compatible-string fallback can
decide. -/
theorem C4_check_type_include_amended (disp : DisplayInfo) (type : Nat)
    (data : Option (List String)) (hwf : disp_wf disp)
    (ht : type = FDT_IS_NODE ∨ type = FDT_IS_PROP ∨ type = FDT_IS_COMPAT) :
    check_type_include disp type data = check_type_include_amended disp type data := by
  obtain ⟨hinc, hexc, hkinds⟩ := hwf
  have ht' : type = 1 ∨ type = 2 ∨ type = 4 := ht
  unfold check_type_include check_type_include_amended
  by_cases hm : disp.value_head.all (fun v => type &&& v.vtype == 0) = true
  · rw [if_pos ((mention_iff disp type hinc hexc).mpr hm), if_pos hm]
  · rw [if_neg (fun h => hm ((mention_iff disp type hinc hexc).mp h)), if_neg hm]
    obtain ⟨g1, g2, hge⟩ : ∃ g1 g2,
        check_type_include_go type data disp.value_head FDT_IS_ANY = (g1, g2) :=
      ⟨_, _, rfl⟩
    have hfst := check_type_include_go_fst type data disp.value_head FDT_IS_ANY
    simp only [hge] at hfst
    by_cases hany : disp.value_head.any (fun v => rule_matches type data v && v.inc) = true
    · rw [if_pos hany] at hfst
      subst hfst
      simp only [hge]
      rw [if_pos hany]
    · rw [if_neg hany] at hfst
      subst hfst
      simp only [hge]
      rw [if_neg hany]
      have hsnd : g2 &&& type = 0 ↔ (FDT_IS_ANY : Nat) &&& type = 0 ∨
          disp.value_head.any (fun v => rule_matches type data v && !v.inc) = true := by
        have h0 := check_type_include_go_snd type data disp.value_head FDT_IS_ANY ht'
          hkinds (by simpa using hany)
        simpa only [hge] using h0
      have h7 : ¬((FDT_IS_ANY : Nat) &&& type = 0) := by
        rcases ht' with rfl | rfl | rfl <;> decide
      have hnm : g2 &&& type ≠ 0 ↔
          ¬(disp.value_head.any (fun v => rule_matches type data v && !v.inc) = true) := by
        constructor
        · intro hne hc
          exact hne (hsnd.mpr (Or.inr hc))
        · intro hno hz
          rcases hsnd.mp hz with h | h
          · exact h7 h
          · exact hno h
      have hAiff : (type &&& disp.types_exc ≠ 0 ∧ g2 &&& type ≠ 0) ↔
          ((disp.value_head.any (fun v => (type &&& v.vtype != 0) && !v.inc) &&
            !disp.value_head.any (fun v => rule_matches type data v && !v.inc)) = true) := by
        rw [Bool.and_eq_true, Bool.not_eq_true']
        constructor
        · rintro ⟨ha, hb⟩
          refine ⟨(exc_active_iff disp type hexc).mp ha, ?_⟩
          have hno := hnm.mp hb
          cases h2v : disp.value_head.any (fun v => rule_matches type data v && !v.inc)
          · rfl
          · exact absurd h2v hno
        · rintro ⟨ha, hb⟩
          exact ⟨(exc_active_iff disp type hexc).mpr ha, hnm.mpr (by simp [hb])⟩
      exact if_congr hAiff rfl rfl

/-- Witness for C4's amended theorem at the counterexample's own filter set
and a property query. -/
theorem C4_check_type_include_amended_witness :
    disp_wf c4_disp ∧
    check_type_include c4_disp FDT_IS_PROP (some ["u"]) =
      check_type_include_amended c4_disp FDT_IS_PROP (some ["u"]) :=
  ⟨by decide, C4_check_type_include_amended c4_disp FDT_IS_PROP (some ["u"])
    (by decide) (Or.inr (Or.inl rfl))⟩

/-- The inclusion decision of a switch outcome (`include` in the C code),
when the switch did not error out. -/
def SwitchOut.incOf : SwitchOut → Option Bool
  | .fail _ => none
  | .cont _ _ inc _ => some inc

/-- C5: when the node classification is DontKnow (-1), h_include answers
exactly what it would answer for a Compat-kind query on the node's
`compatible` property value: the compatible re-classification (with the
invert flag applied to definite answers, as for any classification) becomes
the node's classification. -/
theorem C5_h_include_compat_fallback (disp : DisplayInfo)
    (compatOf : Nat → Option (List String)) (offset : Nat)
    (data : Option (List String))
    (h : check_type_include disp FDT_IS_NODE data = -1) :
    h_include disp compatOf offset FDT_IS_NODE data =
      h_include disp compatOf offset FDT_IS_COMPAT (compatOf offset) := by
  unfold h_include
  simp only [h]
  norm_num [FDT_IS_NODE, FDT_IS_COMPAT]

/-- Witness for C5 at a concrete configuration: a `-c v` filter, a node
whose path says nothing, and a compatible list containing "v". -/
theorem C5_h_include_compat_fallback_witness :
    check_type_include { disp_default with
        types_inc := 4
        value_head := [{ vtype := 4, inc := true, str := "v" }] }
      FDT_IS_NODE (some ["/x"]) = -1 ∧
    h_include { disp_default with
        types_inc := 4
        value_head := [{ vtype := 4, inc := true, str := "v" }] }
      (fun _ => some ["v"]) 8 FDT_IS_NODE (some ["/x"]) =
    h_include { disp_default with
        types_inc := 4
        value_head := [{ vtype := 4, inc := true, str := "v" }] }
      (fun _ => some ["v"]) 8 FDT_IS_COMPAT (some ["v"]) :=
  ⟨by decide, C5_h_include_compat_fallback _ _ 8 _ (by decide)⟩

/-- C6 (amended): during the struct walk a Prop tag is included iff the
predicate says Include, or the current want is at least NodesAndProps and
the predicate says DontKnow; a Nop tag is included iff want is at least
NodesAndProps — the predicate is not consulted for Nop tags (the decision
below holds for every handler `hinc`). -/
theorem C6_prop_nop_inclusion (flags : FdtRegFlags) (pathLen : Nat)
    (hinc : HInclude) (stack : List StackEntry) (p : FdtRegionPtrs)
    (offset next : Nat) (name : String) :
    (fdt_region_switch flags pathLen hinc stack p offset next (.prop name)).incOf =
      some (if hinc offset FDT_IS_PROP (some [name]) = -1
            then decide (WANT_NODES_AND_PROPS ≤ p.want)
            else hinc offset FDT_IS_PROP (some [name]) != 0) ∧
    (fdt_region_switch flags pathLen hinc stack p offset next .nop).incOf =
      some (decide (WANT_NODES_AND_PROPS ≤ p.want)) := by
  constructor
  · by_cases hv : hinc offset FDT_IS_PROP (some [name]) = -1
    · simp [fdt_region_switch, SwitchOut.incOf, hv]
    · simp only [fdt_region_switch, SwitchOut.incOf, if_neg hv]
  · rfl

/-- The blob of the C6 counterexample: a root node containing one Nop tag.
Struct offsets: BEGIN_NODE at 0 (8 bytes), NOP at 8 (4 bytes), END at 12
(4 bytes); the struct block starts at file offset 100. -/
def c6_blob : FdtBlob :=
  { off_dt_struct := 100
    off_mem_rsvmap := 80
    off_dt_strings := 200
    size_dt_strings := 10
    size_dt_struct := 16
    items := [⟨.beginNode "", 8⟩, ⟨.nop, 4⟩, ⟨.fdtEnd, 4⟩]
    compat := fun _ => none }

/-- The handler of the C6 counterexample: Include (1) for everything except
node queries. -/
def c6_hinc : HInclude := fun _ type _ => if type = FDT_IS_NODE then 0 else 1

/-- C6: the claim's iff fails for Nop tags, because the predicate is never
consulted for them.  The handler here answers Include (1) for a Prop-kind
query at the Nop's offset (offset 8), so by the claim the Nop tag (file
bytes 108..112) should be covered by a region; the complete run yields only
the region (112, 4) (the END tag), which does not cover the Nop. -/
theorem C6_counterexample :
    c6_hinc 8 FDT_IS_PROP (some ["p"]) = 1 ∧
    fdt_find_regions c6_blob c6_hinc flagsNone 1024 16 8 =
      .found [{ offset := 112, size := 4 }] :=
  ⟨rfl, by decide⟩

/-- Whether an option adds an Exclude-polarity rule (-N, -P, -C, -G). -/
def GrepOpt.isExclude : GrepOpt → Bool
  | .excludeNode _ => true
  | .excludeProp _ => true
  | .excludeCompat _ => true
  | .excludeMatch _ => true
  | _ => false

lemma value_add_some (d : DisplayInfo) (t : Nat) (inc : Bool) (s : String)
    (d' : DisplayInfo) (h : value_add d t inc s = some d') :
    d'.invert = d.invert ∧
    d'.types_exc = (if inc then d.types_exc else d.types_exc ||| t) := by
  by_cases hinc : inc = true
  · simp only [value_add, if_pos hinc] at h
    split at h
    · exact absurd h (by simp)
    · simp only [Option.some.injEq] at h
      subst h
      exact ⟨rfl, by simp [hinc]⟩
  · simp only [value_add, if_neg hinc] at h
    split at h
    · exact absurd h (by simp)
    · simp only [Option.some.injEq] at h
      subst h
      exact ⟨rfl, by simp [hinc]⟩

lemma scan_args_step_invert (d : DisplayInfo) (o : GrepOpt) (d' : DisplayInfo)
    (h : scan_args_step d o = some d') (hi : d.invert = true) : d'.invert = true := by
  cases o <;> simp only [scan_args_step] at h <;>
    first
    | (rw [(value_add_some _ _ _ _ _ h).1]; exact hi)
    | ((repeat' split at h) <;> first | (simp only [Option.some.injEq] at h; subst h; first | rfl | exact hi) | exact Option.noConfusion h)

lemma scan_args_step_exc (d : DisplayInfo) (o : GrepOpt) (d' : DisplayInfo)
    (h : scan_args_step d o = some d') (hi : d.types_exc ≠ 0) : d'.types_exc ≠ 0 := by
  cases o <;> simp only [scan_args_step] at h <;>
    first
    | (rw [(value_add_some _ _ _ _ _ h).2]; split <;> first | exact hi | exact fun hz => hi ((lor_eq_zero_iff _ _).mp hz).1)
    | ((repeat' split at h) <;> first | (simp only [Option.some.injEq] at h; subst h; first | rfl | exact hi) | exact Option.noConfusion h)

lemma scan_args_step_invertMatch (d : DisplayInfo) (d' : DisplayInfo)
    (h : scan_args_step d .invertMatch = some d') : d'.invert = true := by
  simp only [scan_args_step, Option.some.injEq] at h
  subst h
  rfl

lemma scan_args_step_exclude (d : DisplayInfo) (o : GrepOpt) (d' : DisplayInfo)
    (h : scan_args_step d o = some d') (he : o.isExclude = true) : d'.types_exc ≠ 0 := by
  cases o <;> simp only [GrepOpt.isExclude, Bool.false_eq_true, eq_self_iff_true] at he <;>
    (simp only [scan_args_step] at h
     have h2 := (value_add_some _ _ _ _ _ h).2
     rw [if_neg Bool.false_ne_true] at h2
     rw [h2]
     exact fun hz => absurd ((lor_eq_zero_iff _ _).mp hz).2 (by decide))

lemma scan_args_rejects (opts : List GrepOpt) (d : DisplayInfo)
    (hv : d.invert = true ∨ GrepOpt.invertMatch ∈ opts)
    (he : d.types_exc ≠ 0 ∨ ∃ o ∈ opts, o.isExclude = true) :
    scan_args d opts = none := by
  induction opts generalizing d with
  | nil =>
    rcases hv with hv | hv
    · rcases he with he | he
      · simp [scan_args, hv, he]
      · obtain ⟨o, ho, _⟩ := he
        exact absurd ho (List.not_mem_nil o)
    · exact absurd hv (List.not_mem_nil _)
  | cons o rest ih =>
    rw [scan_args]
    cases hstep : scan_args_step d o with
    | none => rfl
    | some d' =>
      apply ih
      · rcases hv with hv | hv
        · exact Or.inl (scan_args_step_invert d o d' hstep hv)
        · rcases List.mem_cons.mp hv with rfl | hv
          · exact Or.inl (scan_args_step_invertMatch d d' hstep)
          · exact Or.inr hv
      · rcases he with he | he
        · exact Or.inl (scan_args_step_exc d o d' hstep he)
        · obtain ⟨w, hw, hwe⟩ := he
          rcases List.mem_cons.mp hw with rfl | hw
          · exact Or.inl (scan_args_step_exclude d w d' hstep hwe)
          · exact Or.inr ⟨w, hw, hwe⟩

/-- C8: any combination of the global invert flag (-v) and an
Exclude-polarity rule (-N, -P, -C, -G) is rejected at setup: scan_args aborts
via usage(), the program exits with a nonzero code and no region walk is
performed. -/
theorem C8_invert_exclude_rejected (opts : List GrepOpt) (blob : FdtBlob)
    (pathLen fuelTags fuelCalls : Nat)
    (hv : GrepOpt.invertMatch ∈ opts)
    (he : ∃ o ∈ opts, o.isExclude = true) :
    fdtgrep_main opts blob pathLen fuelTags fuelCalls = .usageError := by
  unfold fdtgrep_main
  rw [scan_args_rejects opts disp_default (Or.inr hv) (Or.inr he)]

/-- Witness for C8: the spec's own scenario `-v -N x`. -/
theorem C8_invert_exclude_rejected_witness :
    fdtgrep_main [.invertMatch, .excludeNode "x"] c6_blob 1024 16 8 = .usageError :=
  C8_invert_exclude_rejected _ c6_blob 1024 16 8 (by decide)
    ⟨.excludeNode "x", by decide, rfl⟩

/-- Statistics of a driver outcome: region count, final capacity, passes. -/
def driver_stats : DriverOut → Option (Nat × Nat × Nat)
  | .ok l cap p => some (l.length, cap, p)
  | .err => none
  | .noFuel => none

/-- The structure block of the C9 counterexample: a root node holding 101
pairs of properties "y" (selected) and "z" (not selected); with the `-p y`
filter the walk yields 102 regions (the root-plus-first-y region, 100
further y regions, and the END region), which overflows the initial
allocation of 100. -/
def c9_items : List FdtItem :=
  ⟨.beginNode "", 8⟩ ::
    (List.replicate 101 [(⟨.prop "y", 12⟩ : FdtItem), ⟨.prop "z", 12⟩]).flatten ++
      [⟨.fdtEnd, 4⟩]

/-- The blob of the C9 counterexample. -/
def c9_blob : FdtBlob :=
  { off_dt_struct := 100
    off_mem_rsvmap := 60
    off_dt_strings := 4000
    size_dt_strings := 10
    size_dt_struct := 2436
    items := c9_items
    compat := fun _ => none }

/-- The `-p y` display configuration of the C9 counterexample (no region
flags, so each selected property is its own region). -/
def c9_disp : DisplayInfo :=
  { disp_default with
      flags := flagsNone
      types_inc := 2
      value_head := [{ vtype := 2, inc := true, str := "y" }] }

set_option maxRecDepth 10000

/-- C9: the claim's doubling retry fails on the code.  The first pass
counts 102 regions, which exceeds the allocation of 100; by the claim the
driver would double the capacity to 200 and retry; the code instead
reallocates to exactly the reported count, so the final capacity is 102,
not 2 * 100. -/
theorem C9_counterexample :
    driver_stats (do_fdtgrep_regions c9_disp c9_blob 1024 210 110) =
      some (102, 102, 2) ∧ 102 ≠ 2 * 100 :=
  ⟨by decide, by decide⟩

/-- C9 (amended): the driver allocates 100 regions, runs the first/next
loop to the terminal NotFound, and when the reported count exceeds the
allocation it reallocates to exactly the reported count (not double) and
retries the whole walk once, so the final run's count fits its array; there
are at most two passes, and a second pass happens exactly when the count
exceeds 100. -/
theorem C9_driver_retry_exact (disp : DisplayInfo) (blob : FdtBlob)
    (pathLen fuelTags fuelCalls : Nat) (l : List FdtRegion) (cap p : Nat)
    (h : do_fdtgrep_regions disp blob pathLen fuelTags fuelCalls = .ok l cap p) :
    l.length ≤ cap ∧ cap = (if l.length ≤ 100 then 100 else l.length) ∧
    p ≤ 2 ∧ (p = 2 ↔ 100 < l.length) := by
  unfold do_fdtgrep_regions at h
  cases hf : fdt_find_regions blob (h_include_of disp blob) disp.flags
      pathLen fuelTags fuelCalls with
  | fail e => simp only [hf] at h; exact absurd h (by simp)
  | noFuel => simp only [hf] at h; exact absurd h (by simp)
  | found l1 =>
    simp only [hf] at h
    by_cases hle : l1.length ≤ 100
    · rw [if_pos hle] at h
      simp only [DriverOut.ok.injEq] at h
      obtain ⟨rfl, rfl, rfl⟩ := h
      exact ⟨hle, by rw [if_pos hle], by omega, by omega⟩
    · rw [if_neg hle] at h
      simp only [DriverOut.ok.injEq] at h
      obtain ⟨rfl, rfl, rfl⟩ := h
      exact ⟨le_refl _, by rw [if_neg hle], le_refl _, by omega⟩

/-- The spec's first end-to-end scenario as a structure block:
`/ { a { b; c; }; d { }; }`.  Offsets: BEGIN "/" at 0, BEGIN "a" at 8,
PROP "b" at 16, PROP "c" at 32, END_NODE at 48, BEGIN "d" at 52, END_NODE
at 60, END_NODE at 64, END at 68. -/
def demo_blob : FdtBlob :=
  { off_dt_struct := 100
    off_mem_rsvmap := 80
    off_dt_strings := 200
    size_dt_strings := 10
    size_dt_struct := 72
    items := [⟨.beginNode "", 8⟩, ⟨.beginNode "a", 8⟩, ⟨.prop "b", 16⟩,
              ⟨.prop "c", 16⟩, ⟨.endNode, 4⟩, ⟨.beginNode "d", 8⟩,
              ⟨.endNode, 4⟩, ⟨.endNode, 4⟩, ⟨.fdtEnd, 4⟩]
    compat := fun _ => none }

/-- The `-p b` display configuration over the demo blob (default flags, so
supernodes are on). -/
def demo_disp : DisplayInfo :=
  { disp_default with
      types_inc := 2
      value_head := [{ vtype := 2, inc := true, str := "b" }] }

/-- Witness for C9's amended theorem: a small run (two regions) that fits
the first pass. -/
theorem C9_driver_retry_exact_witness :
    ([{ offset := 100, size := 32 }, { offset := 148, size := 24 }] :
        List FdtRegion).length ≤ 100 ∧
    (100 = if ([{ offset := 100, size := 32 }, { offset := 148, size := 24 }] :
        List FdtRegion).length ≤ 100 then 100 else
        ([({ offset := 100, size := 32 } : FdtRegion), { offset := 148, size := 24 }]).length) ∧
    1 ≤ 2 ∧ ((1 : Nat) = 2 ↔ 100 <
      ([({ offset := 100, size := 32 } : FdtRegion), { offset := 148, size := 24 }]).length) :=
  C9_driver_retry_exact demo_disp demo_blob 1024 50 50 _ 100 1 (by decide)

lemma fdt_add_region_some_length (max : Nat) (cm : Bool) (regs : List FdtRegion)
    (off sz : Int) (regs' : List FdtRegion)
    (h : fdt_add_region max cm regs off sz = some regs') :
    1 ≤ regs'.length ∧ regs'.length ≤ max ∧
    (regs'.length = regs.length ∨ regs'.length = regs.length + 1) := by
  unfold fdt_add_region at h
  cases hl : regs.getLast? with
  | none =>
    simp only [hl] at h
    split at h
    · simp only [Option.some.injEq] at h
      subst h
      have hnil : regs = [] := List.getLast?_eq_none_iff.mp hl
      subst hnil
      have hL : (([] : List FdtRegion) ++ [({ offset := off, size := sz } : FdtRegion)]).length = 1 := by
        rw [List.length_append, List.length_singleton, List.length_nil]
      rw [hL]
      rename_i hlt
      have h0 : ([] : List FdtRegion).length = 0 := rfl
      rw [h0]
      omega
    · exact absurd h (by simp)
  | some last =>
    simp only [hl] at h
    have hne : regs ≠ [] := by
      intro hnil
      rw [hnil] at hl
      exact absurd hl (by simp)
    have hpos : 1 ≤ regs.length := List.length_pos.mpr hne
    split at h
    · simp only [Option.some.injEq] at h
      subst h
      rename_i hcond
      obtain ⟨hcm, hlemax, hoff⟩ := hcond
      have hL : (regs.dropLast ++
          [({ offset := last.offset, size := off + sz - last.offset } : FdtRegion)]).length
          = regs.length := by
        rw [List.length_append, List.length_singleton, List.length_dropLast]
        omega
      rw [hL]
      omega
    · split at h
      · simp only [Option.some.injEq] at h
        subst h
        rename_i hlt
        have hL : (regs ++ [({ offset := off, size := sz } : FdtRegion)]).length
            = regs.length + 1 := by
          rw [List.length_append, List.length_singleton]
        rw [hL]
        omega
      · exact absurd h (by simp)

lemma fdt_add_region_none_length (max : Nat) (cm : Bool) (regs : List FdtRegion)
    (off sz : Int) (h : fdt_add_region max cm regs off sz = none)
    (hle : regs.length ≤ max) : regs.length = max := by
  unfold fdt_add_region at h
  cases hl : regs.getLast? with
  | none =>
    simp only [hl] at h
    split at h
    · exact absurd h (by simp)
    · omega
  | some last =>
    simp only [hl] at h
    split at h
    · exact absurd h (by simp)
    · split at h
      · exact absurd h (by simp)
      · omega

lemma fdt_include_supernodes_go_paused (blob : FdtBlob) (max : Nat) :
    ∀ (n i : Nat) (regs : List FdtRegion) (stack : List StackEntry) (cm : Bool)
      (regs' : List FdtRegion) (stack' : List StackEntry) (cm' : Bool),
      fdt_include_supernodes_go blob max n i regs stack cm = .paused regs' stack' cm' →
      regs.length ≤ max → regs'.length = max
  | 0, i, regs, stack, cm, regs', stack', cm', h, hle => by
    simp only [fdt_include_supernodes_go] at h
    exact SupOut.noConfusion h
  | n + 1, i, regs, stack, cm, regs', stack', cm', h, hle => by
    simp only [fdt_include_supernodes_go] at h
    split at h
    · cases htag : fdt_next_tag blob.items (stack.getD i default).offset with
      | none => simp only [htag] at h; exact SupOut.noConfusion h
      | some pr =>
        simp only [htag] at h
        cases hadd : fdt_add_region max cm regs
            ((blob.off_dt_struct : Int) + ((stack.getD i default).offset : Int))
            ((pr.2 : Int) - ((stack.getD i default).offset : Int)) with
        | none =>
          simp only [hadd] at h
          obtain ⟨rfl, -, -⟩ := SupOut.paused.inj h
          exact fdt_add_region_none_length max cm regs _ _ hadd hle
        | some regs2 =>
          simp only [hadd] at h
          have hlen := fdt_add_region_some_length max cm regs _ _ regs2 hadd
          exact fdt_include_supernodes_go_paused blob max n (i + 1) regs2 _ _
            regs' stack' cm' h hlen.2.1
    · exact fdt_include_supernodes_go_paused blob max n (i + 1) regs _ cm
        regs' stack' cm' h hle

lemma fdt_include_supernodes_go_done (blob : FdtBlob) (max : Nat) :
    ∀ (n i : Nat) (regs : List FdtRegion) (stack : List StackEntry) (cm : Bool)
      (regs' : List FdtRegion) (stack' : List StackEntry) (cm' : Bool),
      fdt_include_supernodes_go blob max n i regs stack cm = .done regs' stack' cm' →
      regs.length ≤ max →
      regs'.length ≤ max ∧ regs.length ≤ regs'.length
  | 0, i, regs, stack, cm, regs', stack', cm', h, hle => by
    simp only [fdt_include_supernodes_go] at h
    obtain ⟨rfl, -, -⟩ := SupOut.done.inj h
    exact ⟨hle, le_refl _⟩
  | n + 1, i, regs, stack, cm, regs', stack', cm', h, hle => by
    simp only [fdt_include_supernodes_go] at h
    split at h
    · cases htag : fdt_next_tag blob.items (stack.getD i default).offset with
      | none => simp only [htag] at h; exact SupOut.noConfusion h
      | some pr =>
        simp only [htag] at h
        cases hadd : fdt_add_region max cm regs
            ((blob.off_dt_struct : Int) + ((stack.getD i default).offset : Int))
            ((pr.2 : Int) - ((stack.getD i default).offset : Int)) with
        | none => simp only [hadd] at h; exact SupOut.noConfusion h
        | some regs2 =>
          simp only [hadd] at h
          have hlen := fdt_add_region_some_length max cm regs _ _ regs2 hadd
          have hrec := fdt_include_supernodes_go_done blob max n (i + 1) regs2 _ _
            regs' stack' cm' h hlen.2.1
          exact ⟨hrec.1, le_trans (by omega) hrec.2⟩
    · exact fdt_include_supernodes_go_done blob max n (i + 1) regs _ cm
        regs' stack' cm' h hle

lemma fdt_struct_loop_paused_length (blob : FdtBlob) (hinc : HInclude)
    (flags : FdtRegFlags) (pathLen : Nat) :
    ∀ (fuel : Nat) (regs : List FdtRegion) (st : FdtRegionState)
      (regs' : List FdtRegion) (st' : FdtRegionState),
      fdt_struct_loop blob hinc flags pathLen fuel regs st = .paused regs' st' →
      regs.length ≤ st.max_regions →
      regs'.length = st.max_regions ∧ st'.max_regions = st.max_regions
  | 0, regs, st, regs', st', h, hle => by
    simp only [fdt_struct_loop] at h
    split at h <;> exact LoopOut.noConfusion h
  | fuel + 1, regs, st, regs', st', h, hle => by
    rw [fdt_struct_loop] at h
    split at h
    · cases htag : fdt_next_tag blob.items st.ptrs.nextoffset with
      | none => simp only [htag] at h; exact LoopOut.noConfusion h
      | some pr =>
        simp only [htag] at h
        cases hsw : fdt_region_switch flags pathLen hinc st.stack
            { st.ptrs with nextoffset := pr.2 } st.ptrs.nextoffset pr.2 pr.1 with
        | fail e => simp only [hsw] at h; exact LoopOut.noConfusion h
        | cont p stack2 inc stopAt =>
          simp only [hsw] at h
          split at h
          · split at h
            · cases hsup : fdt_include_supernodes blob
                  ({ st with stack := stack2 } : FdtRegionState).max_regions regs
                  ({ st with stack := stack2 } : FdtRegionState).stack
                  ({ st with stack := stack2 } : FdtRegionState).can_merge p.depth with
              | bad => simp only [hsup] at h; exact LoopOut.noConfusion h
              | paused regs2 stack3 cm3 =>
                simp only [hsup] at h
                obtain ⟨rfl, rfl⟩ := LoopOut.paused.inj h
                refine ⟨?_, rfl⟩
                exact fdt_include_supernodes_go_paused blob st.max_regions _ 0 regs
                  stack2 st.can_merge _ stack3 cm3 hsup hle
              | done regs2 stack3 cm3 =>
                simp only [hsup] at h
                have hlen := fdt_include_supernodes_go_done blob st.max_regions _ 0 regs
                  stack2 st.can_merge regs2 stack3 cm3 hsup hle
                have hrec := fdt_struct_loop_paused_length blob hinc flags pathLen
                  fuel regs2 _ regs' st' h hlen.1
                exact hrec
            · have hrec := fdt_struct_loop_paused_length blob hinc flags pathLen
                fuel regs _ regs' st' h hle
              exact hrec
          · split at h
            · cases hadd : fdt_add_region
                  ({ st with stack := stack2 } : FdtRegionState).max_regions
                  ({ st with stack := stack2 } : FdtRegionState).can_merge regs
                  ((blob.off_dt_struct : Int) +
                    ({ st with stack := stack2 } : FdtRegionState).start)
                  ((stopAt : Int) - ({ st with stack := stack2 } : FdtRegionState).start) with
              | none =>
                simp only [hadd] at h
                obtain ⟨rfl, rfl⟩ := LoopOut.paused.inj h
                exact ⟨fdt_add_region_none_length _ _ regs _ _ hadd hle, rfl⟩
              | some regs2 =>
                simp only [hadd] at h
                have hlen := fdt_add_region_some_length _ _ regs _ _ regs2 hadd
                have hrec := fdt_struct_loop_paused_length blob hinc flags pathLen
                  fuel regs2 _ regs' st' h hlen.2.1
                exact hrec
            · have hrec := fdt_struct_loop_paused_length blob hinc flags pathLen
                fuel regs _ regs' st' h hle
              exact hrec
    · exact LoopOut.noConfusion h

lemma fdt_struct_loop_finished_length (blob : FdtBlob) (hinc : HInclude)
    (flags : FdtRegFlags) (pathLen : Nat) :
    ∀ (fuel : Nat) (regs : List FdtRegion) (st : FdtRegionState)
      (regs' : List FdtRegion) (st' : FdtRegionState),
      fdt_struct_loop blob hinc flags pathLen fuel regs st = .finished regs' st' →
      regs.length ≤ st.max_regions →
      regs'.length ≤ st.max_regions ∧ regs.length ≤ regs'.length ∧
        st'.max_regions = st.max_regions
  | 0, regs, st, regs', st', h, hle => by
    simp only [fdt_struct_loop] at h
    split at h
    · exact LoopOut.noConfusion h
    · obtain ⟨rfl, rfl⟩ := LoopOut.finished.inj h
      exact ⟨hle, le_refl _, rfl⟩
  | fuel + 1, regs, st, regs', st', h, hle => by
    rw [fdt_struct_loop] at h
    split at h
    · cases htag : fdt_next_tag blob.items st.ptrs.nextoffset with
      | none => simp only [htag] at h; exact LoopOut.noConfusion h
      | some pr =>
        simp only [htag] at h
        cases hsw : fdt_region_switch flags pathLen hinc st.stack
            { st.ptrs with nextoffset := pr.2 } st.ptrs.nextoffset pr.2 pr.1 with
        | fail e => simp only [hsw] at h; exact LoopOut.noConfusion h
        | cont p stack2 inc stopAt =>
          simp only [hsw] at h
          split at h
          · split at h
            · cases hsup : fdt_include_supernodes blob
                  ({ st with stack := stack2 } : FdtRegionState).max_regions regs
                  ({ st with stack := stack2 } : FdtRegionState).stack
                  ({ st with stack := stack2 } : FdtRegionState).can_merge p.depth with
              | bad => simp only [hsup] at h; exact LoopOut.noConfusion h
              | paused regs2 stack3 cm3 =>
                simp only [hsup] at h
                exact LoopOut.noConfusion h
              | done regs2 stack3 cm3 =>
                simp only [hsup] at h
                have hlen := fdt_include_supernodes_go_done blob st.max_regions _ 0 regs
                  stack2 st.can_merge regs2 stack3 cm3 hsup hle
                have hrec := fdt_struct_loop_finished_length blob hinc flags pathLen
                  fuel regs2 _ regs' st' h hlen.1
                exact ⟨hrec.1, le_trans hlen.2 hrec.2.1, hrec.2.2⟩
            · have hrec := fdt_struct_loop_finished_length blob hinc flags pathLen
                fuel regs _ regs' st' h hle
              exact hrec
          · split at h
            · cases hadd : fdt_add_region
                  ({ st with stack := stack2 } : FdtRegionState).max_regions
                  ({ st with stack := stack2 } : FdtRegionState).can_merge regs
                  ((blob.off_dt_struct : Int) +
                    ({ st with stack := stack2 } : FdtRegionState).start)
                  ((stopAt : Int) - ({ st with stack := stack2 } : FdtRegionState).start) with
              | none =>
                simp only [hadd] at h
                exact LoopOut.noConfusion h
              | some regs2 =>
                simp only [hadd] at h
                have hlen := fdt_add_region_some_length _ _ regs _ _ regs2 hadd
                have hrec := fdt_struct_loop_finished_length blob hinc flags pathLen
                  fuel regs2 _ regs' st' h hlen.2.1
                exact ⟨hrec.1, le_trans (by omega) hrec.2.1, hrec.2.2⟩
            · have hrec := fdt_struct_loop_finished_length blob hinc flags pathLen
                fuel regs _ regs' st' h hle
              exact hrec
    · obtain ⟨rfl, rfl⟩ := LoopOut.finished.inj h
      exact ⟨hle, le_refl _, rfl⟩

lemma fdt_region_ret_ok (regs : List FdtRegion) (st : FdtRegionState)
    (regs' : List FdtRegion) (st' : FdtRegionState)
    (h : fdt_region_ret regs st = .ok regs' st') :
    regs' = regs ∧ st' = st ∧ regs ≠ [] := by
  unfold fdt_region_ret at h
  split at h
  · exact CallOut.noConfusion h
  · obtain ⟨rfl, rfl⟩ := CallOut.ok.inj h
    rename_i hne
    exact ⟨rfl, rfl, hne⟩

lemma fdt_region_strings_ok_length (blob : FdtBlob) (flags : FdtRegFlags)
    (regs : List FdtRegion) (st : FdtRegionState)
    (regs' : List FdtRegion) (st' : FdtRegionState)
    (h : fdt_region_strings blob flags regs st = .ok regs' st')
    (hle : regs.length ≤ st.max_regions) (hmax : 1 ≤ st.max_regions) :
    1 ≤ regs'.length ∧ regs'.length ≤ st.max_regions ∧
      st'.max_regions = st.max_regions := by
  unfold fdt_region_strings at h
  split at h
  · split at h
    · exact CallOut.noConfusion h
    · cases hadd : fdt_add_region st.max_regions false regs
          (blob.off_dt_strings : Int) (blob.size_dt_strings : Int) with
      | none =>
        simp only [hadd] at h
        obtain ⟨rfl, rfl⟩ := CallOut.ok.inj h
        have := fdt_add_region_none_length _ _ regs _ _ hadd hle
        exact ⟨by omega, by omega, rfl⟩
      | some regs2 =>
        simp only [hadd] at h
        have hlen := fdt_add_region_some_length _ _ regs _ _ regs2 hadd
        obtain ⟨rfl, rfl, -⟩ := fdt_region_ret_ok _ _ _ _ h
        exact ⟨hlen.1, hlen.2.1, rfl⟩
  · obtain ⟨rfl, rfl, hne⟩ := fdt_region_ret_ok _ _ _ _ h
    exact ⟨List.length_pos.mpr hne, hle, rfl⟩

lemma fdt_region_finish_ok_length (blob : FdtBlob) (flags : FdtRegFlags)
    (regs : List FdtRegion) (st : FdtRegionState)
    (regs' : List FdtRegion) (st' : FdtRegionState)
    (h : fdt_region_finish blob flags regs st = .ok regs' st')
    (hle : regs.length ≤ st.max_regions) (hmax : 1 ≤ st.max_regions) :
    1 ≤ regs'.length ∧ regs'.length ≤ st.max_regions ∧
      st'.max_regions = st.max_regions := by
  unfold fdt_region_finish at h
  split at h
  · split at h
    · exact CallOut.noConfusion h
    · cases hadd : fdt_add_region st.max_regions st.can_merge regs
          ((blob.off_dt_struct : Int) + st.start)
          ((st.ptrs.nextoffset : Int) - st.start) with
      | none =>
        simp only [hadd] at h
        obtain ⟨rfl, rfl⟩ := CallOut.ok.inj h
        have := fdt_add_region_none_length _ _ regs _ _ hadd hle
        exact ⟨by omega, by omega, rfl⟩
      | some regs2 =>
        simp only [hadd] at h
        have hlen := fdt_add_region_some_length _ _ regs _ _ regs2 hadd
        have hrec := fdt_region_strings_ok_length blob flags regs2 _ regs' st' h
          hlen.2.1 hmax
        exact hrec
  · have hrec := fdt_region_strings_ok_length blob flags regs st regs' st' h hle hmax
    exact hrec

lemma fdt_next_region_struct_ok_length (blob : FdtBlob) (hinc : HInclude)
    (flags : FdtRegFlags) (pathLen fuel : Nat) (regs : List FdtRegion)
    (st : FdtRegionState) (regs' : List FdtRegion) (st' : FdtRegionState)
    (h : fdt_next_region_struct blob hinc flags pathLen fuel regs st = .ok regs' st')
    (hle : regs.length ≤ st.max_regions) (hmax : 1 ≤ st.max_regions) :
    1 ≤ regs'.length ∧ regs'.length ≤ st.max_regions ∧
      st'.max_regions = st.max_regions := by
  unfold fdt_next_region_struct at h
  cases hloop : fdt_struct_loop blob hinc flags pathLen fuel regs st with
  | noFuel => simp only [hloop] at h; exact CallOut.noConfusion h
  | fail e => simp only [hloop] at h; exact CallOut.noConfusion h
  | paused regs2 st2 =>
    simp only [hloop] at h
    have hp := fdt_struct_loop_paused_length blob hinc flags pathLen fuel regs st
      regs2 st2 hloop hle
    obtain ⟨h1, h2⟩ := CallOut.ok.inj h
    subst h1
    subst h2
    exact ⟨by omega, by omega, hp.2⟩
  | finished regs2 st2 =>
    simp only [hloop] at h
    have hf := fdt_struct_loop_finished_length blob hinc flags pathLen fuel regs st
      regs2 st2 hloop hle
    have hrec := fdt_region_finish_ok_length blob flags regs2 st2 regs' st' h
      (hf.2.2 ▸ hf.1) (hf.2.2 ▸ hmax)
    exact ⟨hrec.1, hf.2.2 ▸ hrec.2.1, hf.2.2 ▸ hrec.2.2⟩

lemma fdt_next_region_ok_length (blob : FdtBlob) (hinc : HInclude)
    (flags : FdtRegFlags) (pathLen fuel : Nat) (st : FdtRegionState)
    (regs' : List FdtRegion) (st' : FdtRegionState)
    (h : fdt_next_region blob hinc flags pathLen fuel st = .ok regs' st')
    (hmax : 1 ≤ st.max_regions) :
    1 ≤ regs'.length ∧ regs'.length ≤ st.max_regions ∧
      st'.max_regions = st.max_regions := by
  unfold fdt_next_region at h
  have hz : (([] : List FdtRegion)).length = 0 := rfl
  split at h
  · cases hadd : fdt_add_region st.max_regions st.can_merge []
        (blob.off_mem_rsvmap : Int)
        ((blob.off_dt_struct : Int) - (blob.off_mem_rsvmap : Int)) with
    | none =>
      exfalso
      have := fdt_add_region_none_length _ _ [] _ _ hadd (by omega)
      omega
    | some regs1 =>
      simp only [hadd] at h
      have hlen1 := fdt_add_region_some_length _ _ [] _ _ regs1 hadd
      have hrec := fdt_next_region_struct_ok_length blob hinc flags pathLen fuel regs1 _
        regs' st' h hlen1.2.1 hmax
      exact hrec
  · exact fdt_next_region_struct_ok_length blob hinc flags pathLen fuel [] st
      regs' st' h (by omega) hmax

/-- C10: every call writes at most one region into the caller's output
slot.  fdt_first_region fixes max_regions to 1, no operation changes it,
and every call that returns success (0) has written exactly one (new or
merged) region, regardless of how much room the caller has. -/
theorem C10_one_region_per_call (blob : FdtBlob) (hinc : HInclude)
    (flags : FdtRegFlags) (pathLen fuel : Nat) (st : FdtRegionState)
    (regs' : List FdtRegion) (st' : FdtRegionState) :
    (fdt_first_region blob hinc flags pathLen fuel = .ok regs' st' →
      regs'.length = 1 ∧ st'.max_regions = 1) ∧
    (st.max_regions = 1 →
      fdt_next_region blob hinc flags pathLen fuel st = .ok regs' st' →
      regs'.length = 1 ∧ st'.max_regions = 1) := by
  constructor
  · intro h
    have hr := fdt_next_region_ok_length blob hinc flags pathLen fuel
      (fdt_region_state_init 1) regs' st' h (by rfl)
    have hm : (fdt_region_state_init 1).max_regions = 1 := rfl
    rw [hm] at hr
    exact ⟨by omega, hr.2.2⟩
  · intro hmax h
    have hr := fdt_next_region_ok_length blob hinc flags pathLen fuel st regs' st' h
      (by omega)
    rw [hmax] at hr
    exact ⟨by omega, hr.2.2⟩

/-- The state after the first call on the demo blob (used by C10's
witness): the whole struct block has been walked, the trailing region
starting at struct offset 48 is still pending. -/
def c10_st1 : FdtRegionState :=
  { can_merge := true, max_regions := 1, start := 48,
    ptrs := { want := 1, path := "", nextoffset := 72, depth := -1, done := 2 },
    stack := ⟨1, 0, 2⟩ :: ⟨2, 52, 2⟩ :: List.replicate 62 ⟨0, 0, 0⟩ }

/-- Witness for C10: the first call on the demo blob yields exactly one
region and leaves max_regions at 1. -/
theorem C10_one_region_per_call_witness :
    ([({ offset := 100, size := 32 } : FdtRegion)]).length = 1 ∧
      c10_st1.max_regions = 1 :=
  (C10_one_region_per_call demo_blob (h_include_of demo_disp demo_blob)
    demo_disp.flags 1024 50 (fdt_region_state_init 1)
    [{ offset := 100, size := 32 }] c10_st1).1 (by decide)

lemma fdt_region_switch_congr (flags : FdtRegFlags) (pathLen : Nat)
    (h1 h2 : HInclude)
    (hag1 : ∀ off d, h1 off FDT_IS_NODE d = h2 off FDT_IS_NODE d)
    (hag2 : ∀ off d, h1 off FDT_IS_PROP d = h2 off FDT_IS_PROP d)
    (stack : List StackEntry) (p : FdtRegionPtrs) (offset next : Nat)
    (tag : FdtTag) :
    fdt_region_switch flags pathLen h1 stack p offset next tag =
    fdt_region_switch flags pathLen h2 stack p offset next tag := by
  cases tag <;> simp only [fdt_region_switch, hag1, hag2]

lemma fdt_struct_loop_congr (blob : FdtBlob) (flags : FdtRegFlags)
    (pathLen : Nat) (h1 h2 : HInclude)
    (hag1 : ∀ off d, h1 off FDT_IS_NODE d = h2 off FDT_IS_NODE d)
    (hag2 : ∀ off d, h1 off FDT_IS_PROP d = h2 off FDT_IS_PROP d) :
    ∀ (fuel : Nat) (regs : List FdtRegion) (st : FdtRegionState),
      fdt_struct_loop blob h1 flags pathLen fuel regs st =
      fdt_struct_loop blob h2 flags pathLen fuel regs st
  | 0, regs, st => rfl
  | fuel + 1, regs, st => by
    rw [fdt_struct_loop, fdt_struct_loop]
    simp only [fdt_region_switch_congr flags pathLen h1 h2 hag1 hag2,
      fdt_struct_loop_congr blob flags pathLen h1 h2 hag1 hag2 fuel]

lemma fdt_next_region_congr (blob : FdtBlob) (flags : FdtRegFlags)
    (pathLen fuel : Nat) (h1 h2 : HInclude)
    (hag1 : ∀ off d, h1 off FDT_IS_NODE d = h2 off FDT_IS_NODE d)
    (hag2 : ∀ off d, h1 off FDT_IS_PROP d = h2 off FDT_IS_PROP d)
    (st : FdtRegionState) :
    fdt_next_region blob h1 flags pathLen fuel st =
    fdt_next_region blob h2 flags pathLen fuel st := by
  unfold fdt_next_region fdt_next_region_struct
  simp only [fdt_struct_loop_congr blob flags pathLen h1 h2 hag1 hag2 fuel]

lemma fdt_region_run_loop_congr (blob : FdtBlob) (flags : FdtRegFlags)
    (pathLen fuelTags : Nat) (h1 h2 : HInclude)
    (hag1 : ∀ off d, h1 off FDT_IS_NODE d = h2 off FDT_IS_NODE d)
    (hag2 : ∀ off d, h1 off FDT_IS_PROP d = h2 off FDT_IS_PROP d) :
    ∀ (calls : Nat) (st : FdtRegionState),
      fdt_region_run_loop blob h1 flags pathLen fuelTags calls st =
      fdt_region_run_loop blob h2 flags pathLen fuelTags calls st
  | 0, st => rfl
  | calls + 1, st => by
    rw [fdt_region_run_loop, fdt_region_run_loop]
    simp only [fdt_next_region_congr blob flags pathLen fuelTags h1 h2 hag1 hag2,
      fdt_region_run_loop_congr blob flags pathLen fuelTags h1 h2 hag1 hag2 calls]

/-- The `-n X` display configuration (include node X). -/
def c7_dispA (x : String) : DisplayInfo :=
  { disp_default with
      types_inc := 1
      value_head := [{ vtype := 1, inc := true, str := x }] }

/-- The `-v -N X` display configuration (exclude node X, inverted), as it
would be were the setup check bypassed. -/
def c7_dispB (x : String) : DisplayInfo :=
  { disp_default with
      types_exc := 1
      invert := true
      value_head := [{ vtype := 1, inc := false, str := x }] }

lemma c7_h_include_node_agree (x : String) (compatOf : Nat → Option (List String))
    (off : Nat) (d : Option (List String)) :
    h_include (c7_dispA x) compatOf off FDT_IS_NODE d =
    h_include (c7_dispB x) compatOf off FDT_IS_NODE d := by
  cases hc : d with
  | none =>
    simp [h_include, check_type_include, check_type_include_go, c7_dispA, c7_dispB,
      disp_default, fdt_stringlist_contains, FDT_IS_NODE, FDT_IS_ANY, rule_matches]
  | some l =>
    by_cases hm : x ∈ l
    · simp [h_include, check_type_include, check_type_include_go, c7_dispA, c7_dispB,
        disp_default, fdt_stringlist_contains, hm, FDT_IS_NODE, FDT_IS_ANY, rule_matches]
    · simp [h_include, check_type_include, check_type_include_go, c7_dispA, c7_dispB,
        disp_default, fdt_stringlist_contains, hm, FDT_IS_NODE, FDT_IS_ANY, rule_matches]

lemma c7_h_include_prop_agree (x : String) (compatOf : Nat → Option (List String))
    (off : Nat) (d : Option (List String)) :
    h_include (c7_dispA x) compatOf off FDT_IS_PROP d =
    h_include (c7_dispB x) compatOf off FDT_IS_PROP d := by
  simp [h_include, check_type_include, check_type_include_go, c7_dispA, c7_dispB,
    disp_default, FDT_IS_PROP, FDT_IS_NODE, FDT_IS_ANY]

/-- C7 (amended): the predicates of `-n X` and of `-v -N X` coincide on
every query the region walker makes, so the two configurations produce
identical region lists over every blob — but as a command line, `-v -N X`
never reaches the walk: scan_args rejects the invert flag combined with an
exclude rule, so the second run produces no region list at all. -/
theorem C7_inversion_semantics (x : String) (blob : FdtBlob)
    (pathLen fuelTags fuelCalls : Nat) :
    fdt_find_regions blob (h_include_of (c7_dispA x) blob) (c7_dispA x).flags
      pathLen fuelTags fuelCalls =
    fdt_find_regions blob (h_include_of (c7_dispB x) blob) (c7_dispB x).flags
      pathLen fuelTags fuelCalls := by
  have hfl : (c7_dispA x).flags = (c7_dispB x).flags := rfl
  rw [hfl]
  unfold fdt_find_regions
  exact fdt_region_run_loop_congr blob (c7_dispB x).flags pathLen fuelTags
    (h_include_of (c7_dispA x) blob) (h_include_of (c7_dispB x) blob)
    (fun off d => c7_h_include_node_agree x blob.compat off d)
    (fun off d => c7_h_include_prop_agree x blob.compat off d)
    fuelCalls (fdt_region_state_init 1)

/-- C7: as stated over program runs the claim fails, because `-v -N X` is
rejected at setup: with X = "/a" the `-n /a` run produces a region list
while the `-v -N /a` run aborts with a usage error. -/
theorem C7_counterexample :
    fdtgrep_main [.includeNode "/a"] demo_blob 1024 50 50 ≠
    fdtgrep_main [.invertMatch, .excludeNode "/a"] demo_blob 1024 50 50 := by
  decide

/-- An add request recorded by the trace semantics: the region offset, the
region size, and the value of `can_merge` at the moment of the request. -/
abbrev AddEvt := Int × Int × Bool

/-- Outcome of the trace mirror of fdt_include_supernodes: the recorded add
requests and the updated stack and merge flag (`none` mirrors the
unresolvable-offset artifact). -/
def fdt_sup_trace (blob : FdtBlob) :
    Nat → Nat → List StackEntry → Bool → Option (List AddEvt × List StackEntry × Bool)
  | 0, _, stack, cm => some ([], stack, cm)
  | n + 1, i, stack, cm =>
    let e := stack.getD i default
    if e.included = 0 then
      match fdt_next_tag blob.items e.offset with
      | none => none
      | some pr =>
        let e' : StackEntry := { e with included := 1 }
        let e'' : StackEntry := if e'.want = 0 then { e' with want := WANT_NODES_ONLY } else e'
        match fdt_sup_trace blob n (i + 1) (stack.set i e'') true with
        | none => none
        | some (evts, stack', cm') =>
          some (((blob.off_dt_struct : Int) + (e.offset : Int),
                 (pr.2 : Int) - (e.offset : Int), cm) :: evts, stack', cm')
    else
      let e'' : StackEntry := if e.want = 0 then { e with want := WANT_NODES_ONLY } else e
      fdt_sup_trace blob n (i + 1) (stack.set i e'') cm

/-- Outcome of the trace mirror of the struct-walk loop. -/
inductive TraceLoopOut where
  | finished (evts : List AddEvt) (st : FdtRegionState)
  | fail (err : Nat)
  | noFuel
deriving DecidableEq

/-- Trace mirror of the struct-walk loop of fdt_next_region: identical state
evolution, but add requests are recorded instead of applied, so it never
pauses. -/
def fdt_loop_trace (blob : FdtBlob) (hinc : HInclude) (flags : FdtRegFlags)
    (pathLen : Nat) : Nat → FdtRegionState → TraceLoopOut
  | 0, st =>
    if st.ptrs.done < FDT_DONE_STRUCT then .noFuel else .finished [] st
  | fuel + 1, st =>
    if st.ptrs.done < FDT_DONE_STRUCT then
      let offset := st.ptrs.nextoffset
      match fdt_next_tag blob.items offset with
      | none => .fail FDT_ERR_BADSTRUCTURE
      | some (tag, next) =>
        match fdt_region_switch flags pathLen hinc st.stack
            { st.ptrs with nextoffset := next } offset next tag with
        | .fail e => .fail e
        | .cont p stack' inc stopAt =>
          let st := { st with stack := stack' }
          if inc ∧ st.start = -1 then
            if flags.supernodes then
              match fdt_sup_trace blob (p.depth + 1).toNat 0 st.stack st.can_merge with
              | none => .fail FDT_ERR_BADSTRUCTURE
              | some (evts, stack2, cm2) =>
                match fdt_loop_trace blob hinc flags pathLen fuel
                    { st with stack := stack2, can_merge := cm2,
                              start := (offset : Int), ptrs := p } with
                | .finished evts' st' => .finished (evts ++ evts') st'
                | .fail e => .fail e
                | .noFuel => .noFuel
            else
              fdt_loop_trace blob hinc flags pathLen fuel
                { st with start := (offset : Int), ptrs := p }
          else if ¬inc ∧ st.start ≠ -1 then
            match fdt_loop_trace blob hinc flags pathLen fuel
                { st with start := -1, can_merge := true, ptrs := p } with
            | .finished evts' st' =>
              .finished (((blob.off_dt_struct : Int) + st.start,
                          (stopAt : Int) - st.start, st.can_merge) :: evts') st'
            | .fail e => .fail e
            | .noFuel => .noFuel
          else
            fdt_loop_trace blob hinc flags pathLen fuel { st with ptrs := p }
    else .finished [] st

/-- Outcome of the whole-call trace. -/
inductive TraceOut where
  | done (evts : List AddEvt)
  | fail (err : Nat)
  | noFuel
deriving DecidableEq

/-- Trace mirror of the string-table block. -/
def fdt_trace_strings (blob : FdtBlob) (flags : FdtRegFlags)
    (st : FdtRegionState) : TraceOut :=
  if st.ptrs.done < FDT_DONE_STRINGS ∧ flags.add_string_tab then
    if blob.off_dt_strings < blob.off_dt_struct + st.ptrs.nextoffset then
      .fail FDT_ERR_BADLAYOUT
    else
      .done [((blob.off_dt_strings : Int), (blob.size_dt_strings : Int), false)]
  else .done []

/-- Trace mirror of the trailing-region block. -/
def fdt_trace_finish (blob : FdtBlob) (flags : FdtRegFlags)
    (st : FdtRegionState) : TraceOut :=
  if st.ptrs.done < FDT_DONE_END then
    if st.ptrs.nextoffset ≠ blob.size_dt_struct then .fail FDT_ERR_BADSTRUCTURE
    else
      match fdt_trace_strings blob flags
          { st with ptrs := { st.ptrs with done := st.ptrs.done + 1 } } with
      | .done evts =>
        .done (((blob.off_dt_struct : Int) + st.start,
                (st.ptrs.nextoffset : Int) - st.start, st.can_merge) :: evts)
      | .fail e => .fail e
      | .noFuel => .noFuel
  else fdt_trace_strings blob flags st

/-- Trace mirror of a whole fdt_next_region call driven to the end of the
walk: the sequence of all remaining add requests from state `st`. -/
def fdt_trace (blob : FdtBlob) (hinc : HInclude) (flags : FdtRegFlags)
    (pathLen fuel : Nat) (st : FdtRegionState) : TraceOut :=
  if st.ptrs.done < FDT_DONE_MEM_RSVMAP ∧ flags.add_mem_rsvmap then
    match fdt_loop_trace blob hinc flags pathLen fuel
        { st with can_merge := false,
                  ptrs := { st.ptrs with done := FDT_DONE_MEM_RSVMAP } } with
    | .finished evts st2 =>
      match fdt_trace_finish blob flags st2 with
      | .done evts2 =>
        .done (((blob.off_mem_rsvmap : Int),
                (blob.off_dt_struct : Int) - (blob.off_mem_rsvmap : Int),
                st.can_merge) :: evts ++ evts2)
      | .fail e => .fail e
      | .noFuel => .noFuel
    | .fail e => .fail e
    | .noFuel => .noFuel
  else
    match fdt_loop_trace blob hinc flags pathLen fuel st with
    | .finished evts st2 =>
      match fdt_trace_finish blob flags st2 with
      | .done evts2 => .done (evts ++ evts2)
      | .fail e => .fail e
      | .noFuel => .noFuel
    | .fail e => .fail e
    | .noFuel => .noFuel

/-- Reference adder with no capacity bound: merge exactly when the merge flag
is set and the request touches the last region, else append. -/
def idealAdd (cm : Bool) (regs : List FdtRegion) (off sz : Int) : List FdtRegion :=
  match regs.getLast? with
  | some last =>
    if cm ∧ off ≤ last.offset + last.size then
      regs.dropLast ++ [{ offset := last.offset, size := off + sz - last.offset }]
    else regs ++ [{ offset := off, size := sz }]
  | none => regs ++ [{ offset := off, size := sz }]

/-- Fold the reference adder over a list of add events. -/
def idealFold : List AddEvt → List FdtRegion → List FdtRegion
  | [], cur => cur
  | (off, sz, cm) :: evts, cur => idealFold evts (idealAdd cm cur off sz)

/-- Apply a sequence of add events through the capacity-bounded adder,
failing if any one fails. -/
def addAll (m : Nat) : List AddEvt → List FdtRegion → Option (List FdtRegion)
  | [], regs => some regs
  | (off, sz, cm) :: evts, regs =>
    match fdt_add_region m cm regs off sz with
    | some regs' => addAll m evts regs'
    | none => none

/-- Process add events through the capacity-bounded adder until the first
failure: returns the accumulated regions and the unprocessed suffix
(starting with the failing event, if any). -/
def callFold (m : Nat) : List AddEvt → List FdtRegion → (List FdtRegion × List AddEvt)
  | [], cur => (cur, [])
  | (off, sz, cm) :: evts, cur =>
    match fdt_add_region m cm cur off sz with
    | some cur' => callFold m evts cur'
    | none => (cur, (off, sz, cm) :: evts)

/-- Process add events with per-call capacity `m` and flush-and-retry on
failure: on a failed add the accumulated regions are emitted and the failing
event is retried against an empty accumulator. -/
def pauseFold (m : Nat) : List AddEvt → List FdtRegion → List FdtRegion
  | [], cur => cur
  | (off, sz, cm) :: evts, cur =>
    match fdt_add_region m cm cur off sz with
    | some cur' => pauseFold m evts cur'
    | none =>
      cur ++ (match fdt_add_region m cm [] off sz with
              | some cur0 => pauseFold m evts cur0
              | none => [])

lemma fdt_add_region_empty (m : Nat) (cm : Bool) (off sz : Int) (hm : 1 ≤ m) :
    fdt_add_region m cm [] off sz = some [{ offset := off, size := sz }] := by
  unfold fdt_add_region
  simp only [List.getLast?_nil, List.length_nil]
  rw [if_pos (by omega)]
  simp

lemma pauseFold_ideal (m : Nat) (hm : 1 ≤ m) :
    ∀ (evts : List AddEvt) (pre cur : List FdtRegion),
    cur.length ≤ m → (cur = [] → pre = []) →
    pre ++ pauseFold m evts cur = idealFold evts (pre ++ cur) := by
  intro evts
  induction evts with
  | nil => intro pre cur _ _; simp [pauseFold, idealFold]
  | cons e evts ih =>
    intro pre cur hlen hnil
    obtain ⟨off, sz, cm⟩ := e
    by_cases hcur : cur = []
    · subst hcur
      have hpre : pre = [] := hnil rfl
      subst hpre
      have hadd := fdt_add_region_empty m cm off sz hm
      show pauseFold m ((off, sz, cm) :: evts) [] = idealFold ((off, sz, cm) :: evts) []
      simp only [pauseFold, hadd, idealFold, idealAdd, List.getLast?_nil, List.nil_append]
      have h2 := ih [] [{ offset := off, size := sz }] (by simp; omega) (by simp)
      simpa using h2
    · obtain ⟨last, hl⟩ : ∃ last, cur.getLast? = some last := by
        cases hgl : cur.getLast? with
        | none => exact absurd (List.getLast?_eq_none_iff.mp hgl) hcur
        | some l => exact ⟨l, rfl⟩
      have hlpc : (pre ++ cur).getLast? = some last := by
        rw [List.getLast?_append_of_ne_nil _ hcur]; exact hl
      cases hadd : fdt_add_region m cm cur off sz with
      | some cur' =>
        have hstep : pauseFold m ((off, sz, cm) :: evts) cur = pauseFold m evts cur' := by
          simp only [pauseFold, hadd]
        rw [hstep]
        unfold fdt_add_region at hadd
        simp only [hl] at hadd
        split at hadd
        · rename_i hcond
          obtain ⟨hcm, hle', hoff⟩ := hcond
          simp only [Option.some.injEq] at hadd
          have hideal : idealAdd cm (pre ++ cur) off sz = pre ++ cur' := by
            unfold idealAdd
            simp only [hlpc]
            rw [if_pos ⟨hcm, hoff⟩, List.dropLast_append_of_ne_nil _ hcur,
                List.append_assoc, ← hadd]
          show pre ++ pauseFold m evts cur' = idealFold ((off, sz, cm) :: evts) (pre ++ cur)
          simp only [idealFold, hideal]
          have hcur' : cur' ≠ [] := by
            rw [← hadd]
            intro hx
            have := congrArg List.length hx
            simp at this
          have hlen' : cur'.length ≤ m := by
            rw [← hadd, List.length_append, List.length_singleton, List.length_dropLast]
            have : 1 ≤ cur.length := List.length_pos.mpr hcur
            omega
          exact ih pre cur' hlen' (fun hx => absurd hx hcur')
        · split at hadd
          · rename_i hnc hlt
            simp only [Option.some.injEq] at hadd
            have hnm : ¬(cm = true ∧ off ≤ last.offset + last.size) := by
              intro ⟨h1, h2⟩
              exact hnc ⟨h1, hlen, h2⟩
            have hideal : idealAdd cm (pre ++ cur) off sz = pre ++ cur' := by
              unfold idealAdd
              simp only [hlpc]
              rw [if_neg hnm, List.append_assoc, ← hadd]
            show pre ++ pauseFold m evts cur' = idealFold ((off, sz, cm) :: evts) (pre ++ cur)
            simp only [idealFold, hideal]
            have hcur' : cur' ≠ [] := by
              rw [← hadd]
              intro hx
              have := congrArg List.length hx
              simp at this
            have hlen' : cur'.length ≤ m := by
              rw [← hadd, List.length_append, List.length_singleton]
              omega
            exact ih pre cur' hlen' (fun hx => absurd hx hcur')
          · exact absurd hadd (by simp)
      | none =>
        have hadd0 := fdt_add_region_empty m cm off sz hm
        have hstep : pauseFold m ((off, sz, cm) :: evts) cur
            = cur ++ pauseFold m evts [{ offset := off, size := sz }] := by
          simp only [pauseFold, hadd, hadd0]
        rw [hstep]
        have hnm : ¬(cm = true ∧ off ≤ last.offset + last.size) := by
          intro ⟨h1, h2⟩
          unfold fdt_add_region at hadd
          simp only [hl] at hadd
          rw [if_pos ⟨h1, hlen, h2⟩] at hadd
          exact absurd hadd (by simp)
        have hideal : idealAdd cm (pre ++ cur) off sz
            = (pre ++ cur) ++ [{ offset := off, size := sz }] := by
          unfold idealAdd
          simp only [hlpc]
          rw [if_neg hnm]
        show pre ++ (cur ++ pauseFold m evts [{ offset := off, size := sz }])
            = idealFold ((off, sz, cm) :: evts) (pre ++ cur)
        simp only [idealFold, hideal]
        have h2 := ih (pre ++ cur) [{ offset := off, size := sz }] (by simp; omega) (by simp)
        rw [← List.append_assoc]
        rw [List.append_assoc pre cur] at h2 ⊢
        exact h2

lemma pauseFold_empty_eq_ideal (m : Nat) (hm : 1 ≤ m) (evts : List AddEvt) :
    pauseFold m evts [] = idealFold evts [] := by
  have h := pauseFold_ideal m hm evts [] [] (by simp) (fun _ => rfl)
  simpa using h

lemma pauseFold_capacity_indep (m₁ m₂ : Nat) (hm₁ : 1 ≤ m₁) (hm₂ : 1 ≤ m₂)
    (evts : List AddEvt) : pauseFold m₁ evts [] = pauseFold m₂ evts [] := by
  rw [pauseFold_empty_eq_ideal m₁ hm₁, pauseFold_empty_eq_ideal m₂ hm₂]

lemma pauseFold_callFold (m : Nat) :
    ∀ (evts : List AddEvt) (cur : List FdtRegion),
    pauseFold m evts cur = (callFold m evts cur).1 ++ pauseFold m (callFold m evts cur).2 [] := by
  intro evts
  induction evts with
  | nil => intro cur; simp [pauseFold, callFold]
  | cons e evts ih =>
    intro cur
    obtain ⟨off, sz, cm⟩ := e
    cases hadd : fdt_add_region m cm cur off sz with
    | some cur' =>
      simp only [pauseFold, callFold, hadd]
      exact ih cur'
    | none =>
      simp only [pauseFold, callFold, hadd]
      cases hadd0 : fdt_add_region m cm [] off sz with
      | some cur0 => simp only [hadd0]
      | none => simp only [hadd0, List.append_nil, List.nil_append]

lemma callFold_addAll (m : Nat) :
    ∀ (evts1 : List AddEvt) (evts2 : List AddEvt) (cur cur' : List FdtRegion),
    addAll m evts1 cur = some cur' →
    callFold m (evts1 ++ evts2) cur = callFold m evts2 cur' := by
  intro evts1
  induction evts1 with
  | nil =>
    intro evts2 cur cur' h
    simp only [addAll, Option.some.injEq] at h
    subst h
    simp
  | cons e evts1 ih =>
    intro evts2 cur cur' h
    obtain ⟨off, sz, cm⟩ := e
    simp only [addAll] at h
    cases hadd : fdt_add_region m cm cur off sz with
    | some cur1 =>
      rw [hadd] at h
      simp only [List.cons_append, callFold, hadd]
      exact ih evts2 cur1 cur' h
    | none => rw [hadd] at h; exact absurd h (by simp)

lemma callFold_fail (m : Nat) (off sz : Int) (cm : Bool) (evts2 : List AddEvt)
    (regs : List FdtRegion) (h : fdt_add_region m cm regs off sz = none) :
    callFold m ((off, sz, cm) :: evts2) regs = (regs, (off, sz, cm) :: evts2) := by
  simp only [callFold, h]

lemma addAll_append (m : Nat) :
    ∀ (evts1 evts2 : List AddEvt) (cur cur' : List FdtRegion),
    addAll m evts1 cur = some cur' →
    addAll m (evts1 ++ evts2) cur = addAll m evts2 cur' := by
  intro evts1
  induction evts1 with
  | nil =>
    intro evts2 cur cur' h
    simp only [addAll, Option.some.injEq] at h
    subst h
    simp
  | cons e evts1 ih =>
    intro evts2 cur cur' h
    obtain ⟨off, sz, cm⟩ := e
    simp only [addAll] at h
    cases hadd : fdt_add_region m cm cur off sz with
    | some cur1 =>
      rw [hadd] at h
      simp only [List.cons_append, addAll, hadd]
      exact ih evts2 cur1 cur' h
    | none => rw [hadd] at h; exact absurd h (by simp)

lemma addAll_callFold_all (m : Nat) :
    ∀ (evts : List AddEvt) (cur cur' : List FdtRegion),
    addAll m evts cur = some cur' → callFold m evts cur = (cur', []) := by
  intro evts
  induction evts with
  | nil =>
    intro cur cur' h
    simp only [addAll, Option.some.injEq] at h
    subst h
    rfl
  | cons e evts ih =>
    intro cur cur' h
    obtain ⟨off, sz, cm⟩ := e
    simp only [addAll] at h
    cases hadd : fdt_add_region m cm cur off sz with
    | some cur1 =>
      rw [hadd] at h
      simp only [callFold, hadd]
      exact ih cur1 cur' h
    | none => rw [hadd] at h; exact absurd h (by simp)

/-- Total encoded size of the structure block. -/
def structSize (items : List FdtItem) : Nat := (items.map (·.size)).sum

lemma fdt_next_tag_lt (items : List FdtItem) (hwf : ∀ it ∈ items, 1 ≤ it.size) :
    ∀ (off : Nat) (t : FdtTag) (nx : Nat),
    fdt_next_tag items off = some (t, nx) → off < nx := by
  induction items with
  | nil => intro off t nx h; exact absurd h (by simp [fdt_next_tag])
  | cons it rest ih =>
    intro off t nx h
    have hit : 1 ≤ it.size := hwf it (List.mem_cons_self it rest)
    have hrest : ∀ x ∈ rest, 1 ≤ x.size := fun x hx => hwf x (List.mem_cons_of_mem it hx)
    unfold fdt_next_tag at h
    split at h
    · rename_i hoff
      simp only [Option.some.injEq, Prod.mk.injEq] at h
      omega
    · split at h
      · exact absurd h (by simp)
      · rename_i hoff hlt
        cases hin : fdt_next_tag rest (off - it.size) with
        | none => rw [hin] at h; exact absurd h (by simp)
        | some pr =>
          obtain ⟨t', nx'⟩ := pr
          rw [hin] at h
          simp only [Option.some.injEq, Prod.mk.injEq] at h
          have := ih hrest (off - it.size) t' nx' hin
          omega

lemma fdt_next_tag_le (items : List FdtItem) :
    ∀ (off : Nat) (t : FdtTag) (nx : Nat),
    fdt_next_tag items off = some (t, nx) → nx ≤ structSize items := by
  induction items with
  | nil => intro off t nx h; exact absurd h (by simp [fdt_next_tag])
  | cons it rest ih =>
    intro off t nx h
    unfold fdt_next_tag at h
    have hsz : structSize (it :: rest) = it.size + structSize rest := by
      simp [structSize]
    split at h
    · simp only [Option.some.injEq, Prod.mk.injEq] at h
      omega
    · split at h
      · exact absurd h (by simp)
      · cases hin : fdt_next_tag rest (off - it.size) with
        | none => rw [hin] at h; exact absurd h (by simp)
        | some pr =>
          obtain ⟨t', nx'⟩ := pr
          rw [hin] at h
          simp only [Option.some.injEq, Prod.mk.injEq] at h
          have := ih (off - it.size) t' nx' hin
          omega

lemma list_set_getD_self {α : Type} [Inhabited α] (l : List α) (i : Nat) (e : α)
    (h : l.getD i default = e) : l.set i e = l := by
  by_cases hi : i < l.length
  · apply List.ext_getElem
    · simp
    · intro j hj hj'
      rw [List.getElem_set]
      split
      · rename_i hji
        subst hji
        rw [List.getD_eq_getElem l default hi] at h
        rw [← h]
      · rfl
  · exact List.set_eq_of_length_le (by omega)

lemma list_set_getD_agree {α : Type} [Inhabited α] (l : List α) (i j : Nat) (e : α)
    (h : j ≠ i) : (l.set i e).getD j default = l.getD j default := by
  rw [List.getD, List.getD, List.get?_set_ne _ _ (fun hx => h hx.symm)]

lemma list_getD_set_self {α : Type} [Inhabited α] (l : List α) (i : Nat) (e : α)
    (h : i < l.length) : (l.set i e).getD i default = e := by
  rw [List.getD, List.get?_set_eq_of_lt]
  · rfl
  · exact h

/-- Re-running the switch on a stack that agrees with the produced stack at
every index at or above the produced depth gives the same pointers,
inclusion and stop offset, and leaves that stack unchanged (the only write,
the BEGIN_NODE frame store, rewrites the value already present). -/
lemma switch_rerun (flags : FdtRegFlags) (pathLen : Nat) (hinc : HInclude)
    (stackA stackX stackB : List StackEntry) (p p' : FdtRegionPtrs)
    (off next : Nat) (tag : FdtTag) (inc : Bool) (stop : Nat)
    (h : fdt_region_switch flags pathLen hinc stackA p off next tag
         = .cont p' stackB inc stop)
    (hlen : stackX.length = stackA.length)
    (hdn : p'.depth.toNat < stackA.length)
    (hagree : ∀ j : Nat, p'.depth ≤ (j : Int) →
      stackX.getD j default = stackB.getD j default) :
    fdt_region_switch flags pathLen hinc stackX p off next tag
    = .cont p' stackX inc stop := by
  cases tag with
  | prop name =>
    simp only [fdt_region_switch] at h ⊢
    split at h
    · rename_i hv
      rw [if_pos hv]
      obtain ⟨h1, h2, h3, h4⟩ := SwitchOut.cont.inj h
      subst h1; subst h2; subst h3; subst h4
      rfl
    · rename_i hv
      rw [if_neg hv]
      obtain ⟨h1, h2, h3, h4⟩ := SwitchOut.cont.inj h
      subst h1; subst h2; subst h3; subst h4
      rfl
  | nop =>
    simp only [fdt_region_switch] at h ⊢
    obtain ⟨h1, h2, h3, h4⟩ := SwitchOut.cont.inj h
    subst h1; subst h2; subst h3; subst h4
    rfl
  | fdtEnd =>
    simp only [fdt_region_switch] at h ⊢
    obtain ⟨h1, h2, h3, h4⟩ := SwitchOut.cont.inj h
    subst h1; subst h2; subst h3; subst h4
    rfl
  | endNode =>
    simp only [fdt_region_switch] at h ⊢
    split at h
    · exact absurd h (by simp)
    · rename_i hd
      rw [if_neg hd]
      obtain ⟨h1, h2, h3, h4⟩ := SwitchOut.cont.inj h
      have hread : stackX.getD p.depth.toNat default
          = stackA.getD p.depth.toNat default := by
        have hg := hagree p.depth.toNat (by
          rw [← h1]
          simp only [Int.toNat_of_nonneg (by omega : (0:Int) ≤ p.depth)]
          omega)
        rw [← h2] at hg
        exact hg
      rw [hread]
      subst h1; subst h2; subst h3; subst h4
      rfl
  | beginNode name =>
    simp only [fdt_region_switch] at h ⊢
    split at h
    · exact absurd h (by simp)
    · rename_i hd
      rw [if_neg hd]
      split at h
      · exact absurd h (by simp)
      · rename_i hsp
        rw [if_neg hsp]
        obtain ⟨h1, h2, h3, h4⟩ := SwitchOut.cont.inj h
        subst h3; subst h4
        rw [← h1]
        congr 1
        apply list_set_getD_self
        have hg := hagree p'.depth.toNat (Int.self_le_toNat _)
        rw [← h1] at hg hdn
        rw [hg, ← h2]
        exact list_getD_set_self stackA _ _ hdn

/-- Lockstep between fdt_include_supernodes and its trace: when the trace
succeeds, the machine either performs all the recorded adds, or pauses at
the first failing one, in which case re-tracing from the paused stack yields
exactly the unprocessed requests; the paused stack differs from the
original only on the fully processed prefix of frames, and the pause frame
is unmarked. -/
lemma sup_lockstep_some (blob : FdtBlob) (m : Nat) :
    ∀ (n i : Nat) (regs : List FdtRegion) (stack : List StackEntry) (cm : Bool)
      (evts : List AddEvt) (stackF : List StackEntry) (cmF : Bool),
    i + n ≤ stack.length →
    fdt_sup_trace blob n i stack cm = some (evts, stackF, cmF) →
    (∃ regs2,
        fdt_include_supernodes_go blob m n i regs stack cm = .done regs2 stackF cmF
        ∧ addAll m evts regs = some regs2)
    ∨ (∃ evtsPre off sz cmE evtsPost regsP stackP cmP iP,
        fdt_include_supernodes_go blob m n i regs stack cm = .paused regsP stackP cmP ∧
        evts = evtsPre ++ (off, sz, cmE) :: evtsPost ∧
        addAll m evtsPre regs = some regsP ∧
        fdt_add_region m cmE regsP off sz = none ∧
        fdt_sup_trace blob n i stackP cmP = some ((off, sz, cmE) :: evtsPost, stackF, cmF) ∧
        i ≤ iP ∧ iP < i + n ∧
        (stack.getD iP default).included = 0 ∧
        stackP.length = stack.length ∧
        (∀ j, j < i ∨ iP ≤ j → stackP.getD j default = stack.getD j default)) := by
  intro n
  induction n with
  | zero =>
    intro i regs stack cm evts stackF cmF hrange ht
    simp only [fdt_sup_trace, Option.some.injEq, Prod.mk.injEq] at ht
    obtain ⟨h1, h2, h3⟩ := ht
    subst h1; subst h2; subst h3
    left
    exact ⟨regs, rfl, rfl⟩
  | succ n ih =>
    intro i regs stack cm evts stackF cmF hrange ht
    have hilen : i < stack.length := by omega
    by_cases hmark : (stack.getD i default).included = 0
    · -- unmarked frame
      cases hnt : fdt_next_tag blob.items (stack.getD i default).offset with
      | none =>
        rw [fdt_sup_trace] at ht
        simp only [if_pos hmark, hnt] at ht
        exact absurd ht (by simp)
      | some pr =>
        obtain ⟨t, stop⟩ := pr
        rw [fdt_sup_trace] at ht
        simp only [if_pos hmark, hnt] at ht
        set E : StackEntry :=
          (if (stack.getD i default).want = 0 then
            { want := WANT_NODES_ONLY, offset := (stack.getD i default).offset,
              included := 1 }
          else
            { want := (stack.getD i default).want,
              offset := (stack.getD i default).offset, included := 1 }) with hEdef
        have hEw : E.want ≠ 0 := by
          rw [hEdef]
          split
          · simp [WANT_NODES_ONLY]
          · rename_i hx; simpa using hx
        have hEi : ¬(E.included = 0) := by
          rw [hEdef]
          split <;> simp
        have hsetlen : (stack.set i E).length = stack.length := List.length_set stack i E
        have hrange' : (i + 1) + n ≤ (stack.set i E).length := by
          rw [hsetlen]; omega
        cases hin : fdt_sup_trace blob n (i + 1) (stack.set i E) true with
        | none => rw [hin] at ht; exact absurd ht (by simp)
        | some tr =>
          obtain ⟨evtsIn, stackIn, cmIn⟩ := tr
          rw [hin] at ht
          simp only [Option.some.injEq, Prod.mk.injEq] at ht
          obtain ⟨h1, h2, h3⟩ := ht
          subst h2; subst h3
          -- the machine attempts the same add first
          cases hadd : fdt_add_region m cm regs
              ((blob.off_dt_struct : Int) + ((stack.getD i default).offset : Int))
              ((stop : Int) - ((stack.getD i default).offset : Int)) with
          | none =>
            -- machine pauses right here, with the untouched stack
            right
            refine ⟨[], (blob.off_dt_struct : Int) + ((stack.getD i default).offset : Int),
              (stop : Int) - ((stack.getD i default).offset : Int), cm, evtsIn,
              regs, stack, cm, i, ?_, ?_, rfl, hadd, ?_, le_refl i, by omega, hmark, rfl,
              fun j _ => rfl⟩
            · rw [fdt_include_supernodes_go]
              simp only [if_pos hmark, hnt, hadd]
            · rw [← h1, List.nil_append]
            · rw [fdt_sup_trace]
              simp only [if_pos hmark, hnt, hin]
          | some regs' =>
            have hih := ih (i + 1) regs' (stack.set i E) true evtsIn stackIn cmIn hrange' hin
            cases hih with
            | inl hdone =>
              obtain ⟨regs2, hgo, haddall⟩ := hdone
              left
              refine ⟨regs2, ?_, ?_⟩
              · rw [fdt_include_supernodes_go]
                simp only [if_pos hmark, hnt, hadd]
                exact hgo
              · rw [← h1]
                simp only [addAll, hadd]
                exact haddall
            | inr hpause =>
              obtain ⟨evtsPre, off, sz, cmE, evtsPost, regsP, stackP, cmP, iP,
                hgo, hsplit, haddall, haddfail, hresume, hiP1, hiP2, hunm, hPlen, hagree⟩ := hpause
              right
              have hPi : stackP.getD i default = E := by
                have := hagree i (Or.inl (by omega))
                rw [this, list_getD_set_self stack i E hilen]
              refine ⟨((blob.off_dt_struct : Int) + ((stack.getD i default).offset : Int),
                (stop : Int) - ((stack.getD i default).offset : Int), cm) :: evtsPre,
                off, sz, cmE, evtsPost, regsP, stackP, cmP, iP, ?_, ?_, ?_, haddfail, ?_,
                by omega, by omega, ?_, ?_, ?_⟩
              · rw [fdt_include_supernodes_go]
                simp only [if_pos hmark, hnt, hadd]
                exact hgo
              · rw [← h1, hsplit]
                rfl
              · simp only [addAll, hadd]
                exact haddall
              · -- resuming from the paused stack skips this (now marked) frame
                rw [fdt_sup_trace]
                simp only [hPi, if_neg hEi, if_neg hEw,
                  list_set_getD_self stackP i E hPi]
                exact hresume
              · -- the pause frame is unmarked in the original stack too
                rw [list_set_getD_agree stack i iP E (by omega)] at hunm
                exact hunm
              · rw [hPlen, hsetlen]
              · intro j hj
                rcases hj with hj | hj
                · have := hagree j (Or.inl (by omega))
                  rw [this, list_set_getD_agree stack i j E (by omega)]
                · have := hagree j (Or.inr hj)
                  rw [this, list_set_getD_agree stack i j E (by omega)]
    · -- marked frame: skip, force the want value
      rw [fdt_sup_trace] at ht
      simp only [if_neg hmark] at ht
      set E : StackEntry :=
        (if (stack.getD i default).want = 0 then
          { want := WANT_NODES_ONLY, offset := (stack.getD i default).offset,
            included := (stack.getD i default).included }
        else stack.getD i default) with hEdef
      have hEw : E.want ≠ 0 := by
        rw [hEdef]
        split
        · simp [WANT_NODES_ONLY]
        · rename_i hx; simpa using hx
      have hEi : ¬(E.included = 0) := by
        rw [hEdef]
        split
        · simpa using hmark
        · exact hmark
      have hsetlen : (stack.set i E).length = stack.length := List.length_set stack i E
      have hrange' : (i + 1) + n ≤ (stack.set i E).length := by
        rw [hsetlen]; omega
      have hih := ih (i + 1) regs (stack.set i E) cm evts stackF cmF hrange' ht
      cases hih with
      | inl hdone =>
        obtain ⟨regs2, hgo, haddall⟩ := hdone
        left
        refine ⟨regs2, ?_, haddall⟩
        rw [fdt_include_supernodes_go]
        simp only [if_neg hmark]
        exact hgo
      | inr hpause =>
        obtain ⟨evtsPre, off, sz, cmE, evtsPost, regsP, stackP, cmP, iP,
          hgo, hsplit, haddall, haddfail, hresume, hiP1, hiP2, hunm, hPlen, hagree⟩ := hpause
        right
        have hPi : stackP.getD i default = E := by
          have := hagree i (Or.inl (by omega))
          rw [this, list_getD_set_self stack i E hilen]
        refine ⟨evtsPre, off, sz, cmE, evtsPost, regsP, stackP, cmP, iP, ?_, hsplit,
          haddall, haddfail, ?_, by omega, by omega, ?_, ?_, ?_⟩
        · rw [fdt_include_supernodes_go]
          simp only [if_neg hmark]
          exact hgo
        · rw [fdt_sup_trace]
          simp only [hPi, if_neg hEi, if_neg hEw,
            list_set_getD_self stackP i E hPi]
          exact hresume
        · rw [list_set_getD_agree stack i iP E (by omega)] at hunm
          exact hunm
        · rw [hPlen, hsetlen]
        · intro j hj
          rcases hj with hj | hj
          · have := hagree j (Or.inl (by omega))
            rw [this, list_set_getD_agree stack i j E (by omega)]
          · have := hagree j (Or.inr hj)
            rw [this, list_set_getD_agree stack i j E (by omega)]

/-- Lockstep for a failing supernodes trace: the machine either hits the
same unresolvable frame, or pauses first, with the re-trace from the paused
stack still failing. -/
lemma sup_lockstep_none (blob : FdtBlob) (m : Nat) :
    ∀ (n i : Nat) (regs : List FdtRegion) (stack : List StackEntry) (cm : Bool),
    i + n ≤ stack.length →
    fdt_sup_trace blob n i stack cm = none →
    fdt_include_supernodes_go blob m n i regs stack cm = .bad
    ∨ (∃ regsP stackP cmP iP,
        fdt_include_supernodes_go blob m n i regs stack cm = .paused regsP stackP cmP ∧
        fdt_sup_trace blob n i stackP cmP = none ∧
        i ≤ iP ∧ iP < i + n ∧
        (stack.getD iP default).included = 0 ∧
        stackP.length = stack.length ∧
        (∀ j, j < i ∨ iP ≤ j → stackP.getD j default = stack.getD j default)) := by
  intro n
  induction n with
  | zero =>
    intro i regs stack cm hrange ht
    exact absurd ht (by simp [fdt_sup_trace])
  | succ n ih =>
    intro i regs stack cm hrange ht
    have hilen : i < stack.length := by omega
    by_cases hmark : (stack.getD i default).included = 0
    · cases hnt : fdt_next_tag blob.items (stack.getD i default).offset with
      | none =>
        left
        rw [fdt_include_supernodes_go]
        simp only [if_pos hmark, hnt]
      | some pr =>
        obtain ⟨t, stop⟩ := pr
        rw [fdt_sup_trace] at ht
        simp only [if_pos hmark, hnt] at ht
        set E : StackEntry :=
          (if (stack.getD i default).want = 0 then
            { want := WANT_NODES_ONLY, offset := (stack.getD i default).offset,
              included := 1 }
          else
            { want := (stack.getD i default).want,
              offset := (stack.getD i default).offset, included := 1 }) with hEdef
        have hEw : E.want ≠ 0 := by
          rw [hEdef]
          split
          · simp [WANT_NODES_ONLY]
          · rename_i hx; simpa using hx
        have hEi : ¬(E.included = 0) := by
          rw [hEdef]
          split <;> simp
        have hsetlen : (stack.set i E).length = stack.length := List.length_set stack i E
        have hrange' : (i + 1) + n ≤ (stack.set i E).length := by
          rw [hsetlen]; omega
        cases hin : fdt_sup_trace blob n (i + 1) (stack.set i E) true with
        | some tr => rw [hin] at ht; obtain ⟨a, b, c⟩ := tr; exact absurd ht (by simp)
        | none =>
          cases hadd : fdt_add_region m cm regs
              ((blob.off_dt_struct : Int) + ((stack.getD i default).offset : Int))
              ((stop : Int) - ((stack.getD i default).offset : Int)) with
          | none =>
            right
            refine ⟨regs, stack, cm, i, ?_, ?_, le_refl i, by omega, hmark, rfl,
              fun j _ => rfl⟩
            · rw [fdt_include_supernodes_go]
              simp only [if_pos hmark, hnt, hadd]
            · rw [fdt_sup_trace]
              simp only [if_pos hmark, hnt, hin]
          | some regs' =>
            have hih := ih (i + 1) regs' (stack.set i E) true hrange' hin
            cases hih with
            | inl hbad =>
              left
              rw [fdt_include_supernodes_go]
              simp only [if_pos hmark, hnt, hadd]
              exact hbad
            | inr hpause =>
              obtain ⟨regsP, stackP, cmP, iP, hgo, hresume, hiP1, hiP2, hunm,
                hPlen, hagree⟩ := hpause
              right
              have hPi : stackP.getD i default = E := by
                have := hagree i (Or.inl (by omega))
                rw [this, list_getD_set_self stack i E hilen]
              refine ⟨regsP, stackP, cmP, iP, ?_, ?_, by omega, by omega, ?_, ?_, ?_⟩
              · rw [fdt_include_supernodes_go]
                simp only [if_pos hmark, hnt, hadd]
                exact hgo
              · rw [fdt_sup_trace]
                simp only [hPi, if_neg hEi, if_neg hEw,
                  list_set_getD_self stackP i E hPi]
                exact hresume
              · rw [list_set_getD_agree stack i iP E (by omega)] at hunm
                exact hunm
              · rw [hPlen, hsetlen]
              · intro j hj
                rcases hj with hj | hj
                · have := hagree j (Or.inl (by omega))
                  rw [this, list_set_getD_agree stack i j E (by omega)]
                · have := hagree j (Or.inr hj)
                  rw [this, list_set_getD_agree stack i j E (by omega)]
    · rw [fdt_sup_trace] at ht
      simp only [if_neg hmark] at ht
      set E : StackEntry :=
        (if (stack.getD i default).want = 0 then
          { want := WANT_NODES_ONLY, offset := (stack.getD i default).offset,
            included := (stack.getD i default).included }
        else stack.getD i default) with hEdef
      have hEw : E.want ≠ 0 := by
        rw [hEdef]
        split
        · simp [WANT_NODES_ONLY]
        · rename_i hx; simpa using hx
      have hEi : ¬(E.included = 0) := by
        rw [hEdef]
        split
        · simpa using hmark
        · exact hmark
      have hsetlen : (stack.set i E).length = stack.length := List.length_set stack i E
      have hrange' : (i + 1) + n ≤ (stack.set i E).length := by
        rw [hsetlen]; omega
      have hih := ih (i + 1) regs (stack.set i E) cm hrange' ht
      cases hih with
      | inl hbad =>
        left
        rw [fdt_include_supernodes_go]
        simp only [if_neg hmark]
        exact hbad
      | inr hpause =>
        obtain ⟨regsP, stackP, cmP, iP, hgo, hresume, hiP1, hiP2, hunm,
          hPlen, hagree⟩ := hpause
        right
        have hPi : stackP.getD i default = E := by
          have := hagree i (Or.inl (by omega))
          rw [this, list_getD_set_self stack i E hilen]
        refine ⟨regsP, stackP, cmP, iP, ?_, ?_, by omega, by omega, ?_, ?_, ?_⟩
        · rw [fdt_include_supernodes_go]
          simp only [if_neg hmark]
          exact hgo
        · rw [fdt_sup_trace]
          simp only [hPi, if_neg hEi, if_neg hEw,
            list_set_getD_self stackP i E hPi]
          exact hresume
        · rw [list_set_getD_agree stack i iP E (by omega)] at hunm
          exact hunm
        · rw [hPlen, hsetlen]
        · intro j hj
          rcases hj with hj | hj
          · have := hagree j (Or.inl (by omega))
            rw [this, list_set_getD_agree stack i j E (by omega)]
          · have := hagree j (Or.inr hj)
            rw [this, list_set_getD_agree stack i j E (by omega)]

/-- The switch preserves the stack length and keeps the depth under the
stack bound. -/
lemma switch_inv (flags : FdtRegFlags) (pathLen : Nat) (hinc : HInclude)
    (stack stack' : List StackEntry) (p₀ p : FdtRegionPtrs) (off next : Nat)
    (tag : FdtTag) (inc : Bool) (stop : Nat)
    (h : fdt_region_switch flags pathLen hinc stack p₀ off next tag
         = .cont p stack' inc stop)
    (hd : p₀.depth < (FDT_MAX_DEPTH : Int)) :
    stack'.length = stack.length ∧ p.depth < (FDT_MAX_DEPTH : Int)
    ∧ p.nextoffset = p₀.nextoffset
    ∧ (p.done = p₀.done ∨ p.done = FDT_DONE_STRUCT) := by
  cases tag with
  | prop name =>
    simp only [fdt_region_switch] at h
    split at h
    · obtain ⟨h1, h2, h3, h4⟩ := SwitchOut.cont.inj h
      subst h1; subst h2
      exact ⟨rfl, hd, rfl, Or.inl rfl⟩
    · obtain ⟨h1, h2, h3, h4⟩ := SwitchOut.cont.inj h
      subst h2
      refine ⟨rfl, ?_, ?_, ?_⟩
      · rw [← h1]
        split <;> simpa using hd
      · rw [← h1]
        split <;> rfl
      · rw [← h1]
        split <;> exact Or.inl rfl
  | nop =>
    simp only [fdt_region_switch] at h
    obtain ⟨h1, h2, h3, h4⟩ := SwitchOut.cont.inj h
    subst h1; subst h2
    exact ⟨rfl, hd, rfl, Or.inl rfl⟩
  | fdtEnd =>
    simp only [fdt_region_switch] at h
    obtain ⟨h1, h2, h3, h4⟩ := SwitchOut.cont.inj h
    subst h1; subst h2
    exact ⟨rfl, hd, rfl, Or.inr rfl⟩
  | endNode =>
    simp only [fdt_region_switch] at h
    split at h
    · exact absurd h (by simp)
    · obtain ⟨h1, h2, h3, h4⟩ := SwitchOut.cont.inj h
      subst h1; subst h2
      exact ⟨rfl, by simp only []; omega, rfl, Or.inl rfl⟩
  | beginNode name =>
    simp only [fdt_region_switch] at h
    split at h
    · exact absurd h (by simp)
    · rename_i hdeq
      split at h
      · exact absurd h (by simp)
      · obtain ⟨h1, h2, h3, h4⟩ := SwitchOut.cont.inj h
        subst h1; subst h2
        have hne : p₀.depth + 1 ≠ (FDT_MAX_DEPTH : Int) := fun hx => hdeq hx
        have h64 : (FDT_MAX_DEPTH : Int) = 64 := rfl
        refine ⟨List.length_set stack _ _, ?_, ?_, ?_⟩
        · repeat' split
          all_goals (show p₀.depth + 1 < (FDT_MAX_DEPTH : Int); rw [h64] at hd hne ⊢; omega)
        · repeat' split
          all_goals rfl
        · repeat' split
          all_goals exact Or.inl rfl

/-- The supernodes trace preserves the stack length. -/
lemma sup_trace_len (blob : FdtBlob) :
    ∀ (n i : Nat) (stack : List StackEntry) (cm : Bool)
      (evts : List AddEvt) (stackF : List StackEntry) (cmF : Bool),
    fdt_sup_trace blob n i stack cm = some (evts, stackF, cmF) →
    stackF.length = stack.length := by
  intro n
  induction n with
  | zero =>
    intro i stack cm evts stackF cmF ht
    simp only [fdt_sup_trace, Option.some.injEq, Prod.mk.injEq] at ht
    rw [← ht.2.1]
  | succ n ih =>
    intro i stack cm evts stackF cmF ht
    rw [fdt_sup_trace] at ht
    by_cases hmark : (stack.getD i default).included = 0
    · simp only [if_pos hmark] at ht
      cases hnt : fdt_next_tag blob.items (stack.getD i default).offset with
      | none => simp only [hnt] at ht; exact absurd ht (by simp)
      | some pr =>
        obtain ⟨t, stop⟩ := pr
        simp only [hnt] at ht
        split at ht
        · exact absurd ht (by simp)
        · rename_i evts2 stack2 cm2 heq
          simp only [Option.some.injEq, Prod.mk.injEq] at ht
          obtain ⟨h1, h2, h3⟩ := ht
          have hlen := ih _ _ _ _ _ _ heq
          rw [← h2, hlen, List.length_set]
    · simp only [if_neg hmark] at ht
      have hlen := ih _ _ _ _ _ _ ht
      rw [hlen, List.length_set]

/-- Lockstep between the struct-walk loop and its trace when the trace
finishes: the machine either runs out of fuel, performs every recorded add
and finishes in the same state, or pauses at the first failing add, with
the trace from the paused state yielding exactly the remaining requests. -/
lemma loop_lockstep_fin (blob : FdtBlob) (hinc : HInclude) (flags : FdtRegFlags)
    (pathLen m : Nat) :
    ∀ (ftr fm : Nat) (regs : List FdtRegion) (st : FdtRegionState)
      (evts : List AddEvt) (stT : FdtRegionState),
    st.max_regions = m →
    st.stack.length = FDT_MAX_DEPTH →
    st.ptrs.depth < (FDT_MAX_DEPTH : Int) →
    fdt_loop_trace blob hinc flags pathLen ftr st = .finished evts stT →
    fdt_struct_loop blob hinc flags pathLen fm regs st = .noFuel
    ∨ (∃ regs2, fdt_struct_loop blob hinc flags pathLen fm regs st = .finished regs2 stT
        ∧ addAll m evts regs = some regs2)
    ∨ (∃ evtsPre off sz cmE evtsPost regsP stP,
        fdt_struct_loop blob hinc flags pathLen fm regs st = .paused regsP stP ∧
        evts = evtsPre ++ (off, sz, cmE) :: evtsPost ∧
        addAll m evtsPre regs = some regsP ∧
        fdt_add_region m cmE regsP off sz = none ∧
        stP.max_regions = m ∧ stP.stack.length = FDT_MAX_DEPTH ∧
        stP.ptrs.depth < (FDT_MAX_DEPTH : Int) ∧
        (∃ ftr2, fdt_loop_trace blob hinc flags pathLen ftr2 stP
          = .finished ((off, sz, cmE) :: evtsPost) stT)) := by
  intro ftr
  induction ftr with
  | zero =>
    intro fm regs st evts stT hmax hlen hdepth ht
    rw [fdt_loop_trace] at ht
    split at ht
    · exact absurd ht (by simp)
    · rename_i hdone
      obtain ⟨h1, h2⟩ := TraceLoopOut.finished.inj ht
      subst h1; subst h2
      right; left
      refine ⟨regs, ?_, rfl⟩
      cases fm with
      | zero => rw [fdt_struct_loop, if_neg hdone]
      | succ fm => rw [fdt_struct_loop, if_neg hdone]
  | succ ftr ih =>
    intro fm regs st evts stT hmax hlen hdepth ht
    by_cases hdone : st.ptrs.done < FDT_DONE_STRUCT
    case neg =>
      rw [fdt_loop_trace, if_neg hdone] at ht
      obtain ⟨h1, h2⟩ := TraceLoopOut.finished.inj ht
      subst h1; subst h2
      right; left
      refine ⟨regs, ?_, rfl⟩
      cases fm with
      | zero => rw [fdt_struct_loop, if_neg hdone]
      | succ fm => rw [fdt_struct_loop, if_neg hdone]
    case pos =>
      cases fm with
      | zero =>
        left
        rw [fdt_struct_loop, if_pos hdone]
      | succ fm =>
        rw [fdt_loop_trace] at ht
        simp only [if_pos hdone] at ht
        cases hnt : fdt_next_tag blob.items st.ptrs.nextoffset with
        | none => simp only [hnt] at ht; exact absurd ht (by simp)
        | some pr =>
          obtain ⟨tag, next⟩ := pr
          simp only [hnt] at ht
          cases hsw : fdt_region_switch flags pathLen hinc st.stack
              { st.ptrs with nextoffset := next } st.ptrs.nextoffset next tag with
          | fail e => simp only [hsw] at ht; exact absurd ht (by simp)
          | cont p stack' inc stopAt =>
            simp only [hsw] at ht
            obtain ⟨hlen', hdepth', hnext'⟩ :=
              switch_inv flags pathLen hinc st.stack stack' _ p _ next tag inc stopAt hsw hdepth
            have h64 : FDT_MAX_DEPTH = 64 := rfl
            have h64i : (FDT_MAX_DEPTH : Int) = 64 := rfl
            have hmach : fdt_struct_loop blob hinc flags pathLen (fm + 1) regs st
                = (if inc = true ∧ st.start = -1 then
                    if flags.supernodes = true then
                      match fdt_include_supernodes_go blob st.max_regions
                          (p.depth + 1).toNat 0 regs stack' st.can_merge with
                      | .bad => LoopOut.fail FDT_ERR_BADSTRUCTURE
                      | .paused regs' stack2 cm2 =>
                        LoopOut.paused regs'
                          { st with can_merge := cm2, stack := stack2 }
                      | .done regs' stack2 cm2 =>
                        fdt_struct_loop blob hinc flags pathLen fm regs'
                          { st with can_merge := cm2,
                                    start := (st.ptrs.nextoffset : Int),
                                    ptrs := p, stack := stack2 }
                    else
                      fdt_struct_loop blob hinc flags pathLen fm regs
                        { st with start := (st.ptrs.nextoffset : Int),
                                  ptrs := p, stack := stack' }
                  else if ¬inc = true ∧ st.start ≠ -1 then
                    match fdt_add_region st.max_regions st.can_merge regs
                        ((blob.off_dt_struct : Int) + st.start)
                        ((stopAt : Int) - st.start) with
                    | none => LoopOut.paused regs { st with stack := stack' }
                    | some regs' =>
                      fdt_struct_loop blob hinc flags pathLen fm regs'
                        { st with can_merge := true, start := -1,
                                  ptrs := p, stack := stack' }
                  else
                    fdt_struct_loop blob hinc flags pathLen fm regs
                      { st with ptrs := p, stack := stack' }) := by
              rw [fdt_struct_loop]
              simp only [if_pos hdone, hnt, hsw, fdt_include_supernodes]
            rw [hmach]
            clear hmach
            by_cases hc1 : inc = true ∧ st.start = -1
            · rw [if_pos hc1] at ht ⊢
              by_cases hsup : flags.supernodes = true
              · rw [if_pos hsup] at ht ⊢
                cases hsupt : fdt_sup_trace blob (p.depth + 1).toNat 0 stack'
                    st.can_merge with
                | none => simp only [hsupt] at ht; exact absurd ht (by simp)
                | some tr =>
                  obtain ⟨evtsS, stack2, cm2⟩ := tr
                  simp only [hsupt] at ht
                  have hrangeS : 0 + (p.depth + 1).toNat ≤ stack'.length := by
                    rw [hlen', hlen, h64]
                    rw [h64i] at hdepth'
                    omega
                  have hstack2len := sup_trace_len blob _ _ _ _ _ _ _ hsupt
                  cases hin : fdt_loop_trace blob hinc flags pathLen ftr
                      { st with can_merge := cm2,
                                start := (st.ptrs.nextoffset : Int),
                                ptrs := p, stack := stack2 } with
                  | fail e => simp only [hin] at ht; exact absurd ht (by simp)
                  | noFuel => simp only [hin] at ht; exact absurd ht (by simp)
                  | finished evts1 stT1 =>
                    simp only [hin] at ht
                    obtain ⟨h1, h2⟩ := TraceLoopOut.finished.inj ht
                    subst h2
                    have hsl := sup_lockstep_some blob m (p.depth + 1).toNat 0 regs
                      stack' st.can_merge evtsS stack2 cm2 hrangeS hsupt
                    cases hsl with
                    | inl hdoneS =>
                      obtain ⟨regs2, hgoS, haddS⟩ := hdoneS
                      rw [← hmax] at hgoS
                      simp only [hgoS]
                      have hih := ih fm regs2
                        { st with can_merge := cm2,
                                  start := (st.ptrs.nextoffset : Int),
                                  ptrs := p, stack := stack2 }
                        evts1 stT1 hmax
                        (by show stack2.length = FDT_MAX_DEPTH
                            rw [hstack2len, hlen', hlen])
                        hdepth' hin
                      rcases hih with hih | ⟨regs3, hfin, haddall⟩ | hih
                      · exact Or.inl hih
                      · right; left
                        refine ⟨regs3, hfin, ?_⟩
                        rw [← h1, addAll_append m evtsS evts1 regs regs2 haddS]
                        exact haddall
                      · obtain ⟨evtsPre, off, sz, cmE, evtsPost, regsP, stP,
                          hpau, hsplit, haddall, haddfail, hPmax, hPlen, hPdepth,
                          ftr2, hres⟩ := hih
                        right; right
                        refine ⟨evtsS ++ evtsPre, off, sz, cmE, evtsPost, regsP, stP,
                          hpau, ?_, ?_, haddfail, hPmax, hPlen, hPdepth, ftr2, hres⟩
                        · rw [← h1, hsplit, List.append_assoc]
                        · rw [addAll_append m evtsS evtsPre regs regs2 haddS]
                          exact haddall
                    | inr hpauseS =>
                      obtain ⟨evtsPre, off, sz, cmE, evtsPost, regsP, stackP, cmP, iP,
                        hgoS, hsplitS, haddallS, haddfailS, hresS, hiP1, hiP2, hunmS,
                        hPlenS, hagreeS⟩ := hpauseS
                      rw [← hmax] at hgoS
                      simp only [hgoS]
                      right; right
                      refine ⟨evtsPre, off, sz, cmE, evtsPost ++ evts1, regsP,
                        { st with can_merge := cmP, stack := stackP },
                        rfl, ?_, haddallS, haddfailS, hmax, ?_, hdepth, ftr + 1, ?_⟩
                      · rw [← h1, hsplitS, List.append_assoc]
                        rfl
                      · show stackP.length = FDT_MAX_DEPTH
                        rw [hPlenS, hlen', hlen]
                      · -- resume: re-read the same tag, re-run the switch
                        -- idempotently, replay the remaining supernode adds
                        have hswX : fdt_region_switch flags pathLen hinc stackP
                            { st.ptrs with nextoffset := next } st.ptrs.nextoffset
                            next tag = .cont p stackP inc stopAt := by
                          apply switch_rerun flags pathLen hinc st.stack stackP
                            stack' _ p _ next tag inc stopAt hsw
                          · rw [hPlenS, hlen']
                          · rw [hlen, h64]
                            rw [h64i] at hdepth'
                            omega
                          · intro j hj
                            apply hagreeS
                            right
                            rw [h64i] at hdepth'
                            omega
                        rw [fdt_loop_trace]
                        simp only [if_pos hdone, hnt, hswX, if_pos hc1,
                          if_pos hsup, hresS, hin, List.cons_append]
              · -- no supernodes: no adds in the open branch
                rw [if_neg hsup] at ht ⊢
                exact ih fm regs
                  { st with start := (st.ptrs.nextoffset : Int),
                            ptrs := p, stack := stack' }
                  evts stT hmax
                  (by show stack'.length = FDT_MAX_DEPTH
                      rw [hlen', hlen])
                  hdepth' ht
            · rw [if_neg hc1] at ht ⊢
              by_cases hc2 : ¬inc = true ∧ st.start ≠ -1
              · rw [if_pos hc2] at ht ⊢
                cases hin : fdt_loop_trace blob hinc flags pathLen ftr
                    { st with can_merge := true, start := -1,
                              ptrs := p, stack := stack' } with
                | fail e => simp only [hin] at ht; exact absurd ht (by simp)
                | noFuel => simp only [hin] at ht; exact absurd ht (by simp)
                | finished evts1 stT1 =>
                  simp only [hin] at ht
                  obtain ⟨h1, h2⟩ := TraceLoopOut.finished.inj ht
                  subst h2
                  cases hadd : fdt_add_region st.max_regions st.can_merge regs
                      ((blob.off_dt_struct : Int) + st.start)
                      ((stopAt : Int) - st.start) with
                  | none =>
                    simp only [hadd]
                    right; right
                    refine ⟨[], (blob.off_dt_struct : Int) + st.start,
                      (stopAt : Int) - st.start, st.can_merge, evts1, regs,
                      { st with stack := stack' },
                      rfl, by rw [← h1]; rfl, rfl, by rw [← hmax]; exact hadd, hmax,
                      (by show stack'.length = FDT_MAX_DEPTH; rw [hlen', hlen]),
                      hdepth, ftr + 1, ?_⟩
                    have hswX : fdt_region_switch flags pathLen hinc stack'
                        { st.ptrs with nextoffset := next } st.ptrs.nextoffset
                        next tag = .cont p stack' inc stopAt := by
                      apply switch_rerun flags pathLen hinc st.stack stack'
                        stack' _ p _ next tag inc stopAt hsw hlen'
                      · rw [hlen, h64]
                        rw [h64i] at hdepth'
                        omega
                      · intro j hj
                        rfl
                    rw [fdt_loop_trace]
                    simp only [if_pos hdone, hnt, hswX, if_neg hc1,
                      if_pos hc2, hin]
                  | some regs' =>
                    simp only [hadd]
                    have hih := ih fm regs'
                      { st with can_merge := true, start := -1,
                                ptrs := p, stack := stack' }
                      evts1 stT1 hmax
                      (by show stack'.length = FDT_MAX_DEPTH
                          rw [hlen', hlen])
                      hdepth' hin
                    rcases hih with hih | ⟨regs3, hfin, haddall⟩ | hih
                    · exact Or.inl hih
                    · right; left
                      refine ⟨regs3, hfin, ?_⟩
                      rw [← h1]
                      rw [hmax] at hadd
                      simp only [addAll, hadd]
                      exact haddall
                    · obtain ⟨evtsPre, off, sz, cmE, evtsPost, regsP, stP,
                        hpau, hsplit, haddall, haddfail, hPmax, hPlen, hPdepth,
                        ftr2, hres⟩ := hih
                      right; right
                      refine ⟨((blob.off_dt_struct : Int) + st.start,
                        (stopAt : Int) - st.start, st.can_merge) :: evtsPre,
                        off, sz, cmE, evtsPost, regsP, stP, hpau, ?_, ?_,
                        haddfail, hPmax, hPlen, hPdepth, ftr2, hres⟩
                      · rw [← h1, hsplit]
                        rfl
                      · rw [hmax] at hadd
                        simp only [addAll, hadd]
                        exact haddall
              · rw [if_neg hc2] at ht ⊢
                exact ih fm regs { st with ptrs := p, stack := stack' }
                  evts stT hmax
                  (by show stack'.length = FDT_MAX_DEPTH
                      rw [hlen', hlen])
                  hdepth' ht

/-- Lockstep between the struct-walk loop and its trace when the trace
fails: the machine runs out of fuel, fails with the same error, or pauses
with the trace from the paused state still failing with that error. -/
lemma loop_lockstep_fail (blob : FdtBlob) (hinc : HInclude) (flags : FdtRegFlags)
    (pathLen m : Nat) :
    ∀ (ftr fm : Nat) (regs : List FdtRegion) (st : FdtRegionState) (err : Nat),
    st.max_regions = m →
    st.stack.length = FDT_MAX_DEPTH →
    st.ptrs.depth < (FDT_MAX_DEPTH : Int) →
    fdt_loop_trace blob hinc flags pathLen ftr st = .fail err →
    fdt_struct_loop blob hinc flags pathLen fm regs st = .noFuel
    ∨ fdt_struct_loop blob hinc flags pathLen fm regs st = .fail err
    ∨ (∃ regsP stP,
        fdt_struct_loop blob hinc flags pathLen fm regs st = .paused regsP stP ∧
        stP.max_regions = m ∧ stP.stack.length = FDT_MAX_DEPTH ∧
        stP.ptrs.depth < (FDT_MAX_DEPTH : Int) ∧
        (∃ ftr2, fdt_loop_trace blob hinc flags pathLen ftr2 stP = .fail err)) := by
  intro ftr
  induction ftr with
  | zero =>
    intro fm regs st err hmax hlen hdepth ht
    rw [fdt_loop_trace] at ht
    split at ht
    · exact absurd ht (by simp)
    · exact absurd ht (by simp)
  | succ ftr ih =>
    intro fm regs st err hmax hlen hdepth ht
    by_cases hdone : st.ptrs.done < FDT_DONE_STRUCT
    case neg =>
      rw [fdt_loop_trace, if_neg hdone] at ht
      exact absurd ht (by simp)
    case pos =>
      cases fm with
      | zero =>
        left
        rw [fdt_struct_loop, if_pos hdone]
      | succ fm =>
        rw [fdt_loop_trace] at ht
        simp only [if_pos hdone] at ht
        cases hnt : fdt_next_tag blob.items st.ptrs.nextoffset with
        | none =>
          simp only [hnt] at ht
          obtain h1 := TraceLoopOut.fail.inj ht
          subst h1
          right; left
          rw [fdt_struct_loop]
          simp only [if_pos hdone, hnt]
        | some pr =>
          obtain ⟨tag, next⟩ := pr
          simp only [hnt] at ht
          cases hsw : fdt_region_switch flags pathLen hinc st.stack
              { st.ptrs with nextoffset := next } st.ptrs.nextoffset next tag with
          | fail e =>
            simp only [hsw] at ht
            obtain h1 := TraceLoopOut.fail.inj ht
            subst h1
            right; left
            rw [fdt_struct_loop]
            simp only [if_pos hdone, hnt, hsw]
          | cont p stack' inc stopAt =>
            simp only [hsw] at ht
            obtain ⟨hlen', hdepth', hnext'⟩ :=
              switch_inv flags pathLen hinc st.stack stack' _ p _ next tag inc stopAt hsw hdepth
            have h64 : FDT_MAX_DEPTH = 64 := rfl
            have h64i : (FDT_MAX_DEPTH : Int) = 64 := rfl
            have hmach : fdt_struct_loop blob hinc flags pathLen (fm + 1) regs st
                = (if inc = true ∧ st.start = -1 then
                    if flags.supernodes = true then
                      match fdt_include_supernodes_go blob st.max_regions
                          (p.depth + 1).toNat 0 regs stack' st.can_merge with
                      | .bad => LoopOut.fail FDT_ERR_BADSTRUCTURE
                      | .paused regs' stack2 cm2 =>
                        LoopOut.paused regs'
                          { st with can_merge := cm2, stack := stack2 }
                      | .done regs' stack2 cm2 =>
                        fdt_struct_loop blob hinc flags pathLen fm regs'
                          { st with can_merge := cm2,
                                    start := (st.ptrs.nextoffset : Int),
                                    ptrs := p, stack := stack2 }
                    else
                      fdt_struct_loop blob hinc flags pathLen fm regs
                        { st with start := (st.ptrs.nextoffset : Int),
                                  ptrs := p, stack := stack' }
                  else if ¬inc = true ∧ st.start ≠ -1 then
                    match fdt_add_region st.max_regions st.can_merge regs
                        ((blob.off_dt_struct : Int) + st.start)
                        ((stopAt : Int) - st.start) with
                    | none => LoopOut.paused regs { st with stack := stack' }
                    | some regs' =>
                      fdt_struct_loop blob hinc flags pathLen fm regs'
                        { st with can_merge := true, start := -1,
                                  ptrs := p, stack := stack' }
                  else
                    fdt_struct_loop blob hinc flags pathLen fm regs
                      { st with ptrs := p, stack := stack' }) := by
              rw [fdt_struct_loop]
              simp only [if_pos hdone, hnt, hsw, fdt_include_supernodes]
            rw [hmach]
            clear hmach
            by_cases hc1 : inc = true ∧ st.start = -1
            · rw [if_pos hc1] at ht ⊢
              by_cases hsup : flags.supernodes = true
              · rw [if_pos hsup] at ht ⊢
                cases hsupt : fdt_sup_trace blob (p.depth + 1).toNat 0 stack'
                    st.can_merge with
                | none =>
                  simp only [hsupt] at ht
                  obtain h1 := TraceLoopOut.fail.inj ht
                  subst h1
                  have hrangeS : 0 + (p.depth + 1).toNat ≤ stack'.length := by
                    rw [hlen', hlen, h64]
                    rw [h64i] at hdepth'
                    omega
                  have hsl := sup_lockstep_none blob m (p.depth + 1).toNat 0 regs
                    stack' st.can_merge hrangeS hsupt
                  cases hsl with
                  | inl hbad =>
                    rw [← hmax] at hbad
                    simp only [hbad]
                    right; left
                    trivial
                  | inr hpauseS =>
                    obtain ⟨regsP, stackP, cmP, iP, hgoS, hresS, hiP1, hiP2,
                      hunmS, hPlenS, hagreeS⟩ := hpauseS
                    rw [← hmax] at hgoS
                    simp only [hgoS]
                    right; right
                    refine ⟨regsP, { st with can_merge := cmP, stack := stackP },
                      rfl, hmax, ?_, hdepth, ftr + 1, ?_⟩
                    · show stackP.length = FDT_MAX_DEPTH
                      rw [hPlenS, hlen', hlen]
                    · have hswX : fdt_region_switch flags pathLen hinc stackP
                          { st.ptrs with nextoffset := next } st.ptrs.nextoffset
                          next tag = .cont p stackP inc stopAt := by
                        apply switch_rerun flags pathLen hinc st.stack stackP
                          stack' _ p _ next tag inc stopAt hsw
                        · rw [hPlenS, hlen']
                        · rw [hlen, h64]
                          rw [h64i] at hdepth'
                          omega
                        · intro j hj
                          apply hagreeS
                          right
                          rw [h64i] at hdepth'
                          omega
                      rw [fdt_loop_trace]
                      simp only [if_pos hdone, hnt, hswX, if_pos hc1,
                        if_pos hsup, hresS]
                | some tr =>
                  obtain ⟨evtsS, stack2, cm2⟩ := tr
                  simp only [hsupt] at ht
                  have hrangeS : 0 + (p.depth + 1).toNat ≤ stack'.length := by
                    rw [hlen', hlen, h64]
                    rw [h64i] at hdepth'
                    omega
                  have hstack2len := sup_trace_len blob _ _ _ _ _ _ _ hsupt
                  cases hin : fdt_loop_trace blob hinc flags pathLen ftr
                      { st with can_merge := cm2,
                                start := (st.ptrs.nextoffset : Int),
                                ptrs := p, stack := stack2 } with
                  | finished evts1 stT1 => simp only [hin] at ht; exact absurd ht (by simp)
                  | noFuel => simp only [hin] at ht; exact absurd ht (by simp)
                  | fail e =>
                    simp only [hin] at ht
                    obtain h1 := TraceLoopOut.fail.inj ht
                    subst h1
                    have hsl := sup_lockstep_some blob m (p.depth + 1).toNat 0 regs
                      stack' st.can_merge evtsS stack2 cm2 hrangeS hsupt
                    cases hsl with
                    | inl hdoneS =>
                      obtain ⟨regs2, hgoS, haddS⟩ := hdoneS
                      rw [← hmax] at hgoS
                      simp only [hgoS]
                      exact ih fm regs2
                        { st with can_merge := cm2,
                                  start := (st.ptrs.nextoffset : Int),
                                  ptrs := p, stack := stack2 }
                        e hmax
                        (by show stack2.length = FDT_MAX_DEPTH
                            rw [hstack2len, hlen', hlen])
                        hdepth' hin
                    | inr hpauseS =>
                      obtain ⟨evtsPre, off, sz, cmE, evtsPost, regsP, stackP, cmP, iP,
                        hgoS, hsplitS, haddallS, haddfailS, hresS, hiP1, hiP2, hunmS,
                        hPlenS, hagreeS⟩ := hpauseS
                      rw [← hmax] at hgoS
                      simp only [hgoS]
                      right; right
                      refine ⟨regsP, { st with can_merge := cmP, stack := stackP },
                        rfl, hmax, ?_, hdepth, ftr + 1, ?_⟩
                      · show stackP.length = FDT_MAX_DEPTH
                        rw [hPlenS, hlen', hlen]
                      · have hswX : fdt_region_switch flags pathLen hinc stackP
                            { st.ptrs with nextoffset := next } st.ptrs.nextoffset
                            next tag = .cont p stackP inc stopAt := by
                          apply switch_rerun flags pathLen hinc st.stack stackP
                            stack' _ p _ next tag inc stopAt hsw
                          · rw [hPlenS, hlen']
                          · rw [hlen, h64]
                            rw [h64i] at hdepth'
                            omega
                          · intro j hj
                            apply hagreeS
                            right
                            rw [h64i] at hdepth'
                            omega
                        rw [fdt_loop_trace]
                        simp only [if_pos hdone, hnt, hswX, if_pos hc1,
                          if_pos hsup, hresS, hin]
              · rw [if_neg hsup] at ht ⊢
                exact ih fm regs
                  { st with start := (st.ptrs.nextoffset : Int),
                            ptrs := p, stack := stack' }
                  err hmax
                  (by show stack'.length = FDT_MAX_DEPTH
                      rw [hlen', hlen])
                  hdepth' ht
            · rw [if_neg hc1] at ht ⊢
              by_cases hc2 : ¬inc = true ∧ st.start ≠ -1
              · rw [if_pos hc2] at ht ⊢
                cases hin : fdt_loop_trace blob hinc flags pathLen ftr
                    { st with can_merge := true, start := -1,
                              ptrs := p, stack := stack' } with
                | finished evts1 stT1 => simp only [hin] at ht; exact absurd ht (by simp)
                | noFuel => simp only [hin] at ht; exact absurd ht (by simp)
                | fail e =>
                  simp only [hin] at ht
                  obtain h1 := TraceLoopOut.fail.inj ht
                  subst h1
                  cases hadd : fdt_add_region st.max_regions st.can_merge regs
                      ((blob.off_dt_struct : Int) + st.start)
                      ((stopAt : Int) - st.start) with
                  | none =>
                    simp only [hadd]
                    right; right
                    refine ⟨regs, { st with stack := stack' },
                      rfl, hmax, (by show stack'.length = FDT_MAX_DEPTH; rw [hlen', hlen]),
                      hdepth, ftr + 1, ?_⟩
                    have hswX : fdt_region_switch flags pathLen hinc stack'
                        { st.ptrs with nextoffset := next } st.ptrs.nextoffset
                        next tag = .cont p stack' inc stopAt := by
                      apply switch_rerun flags pathLen hinc st.stack stack'
                        stack' _ p _ next tag inc stopAt hsw hlen'
                      · rw [hlen, h64]
                        rw [h64i] at hdepth'
                        omega
                      · intro j hj
                        rfl
                    rw [fdt_loop_trace]
                    simp only [if_pos hdone, hnt, hswX, if_neg hc1,
                      if_pos hc2, hin]
                  | some regs' =>
                    simp only [hadd]
                    exact ih fm regs'
                      { st with can_merge := true, start := -1,
                                ptrs := p, stack := stack' }
                      e hmax
                      (by show stack'.length = FDT_MAX_DEPTH
                          rw [hlen', hlen])
                      hdepth' hin
              · rw [if_neg hc2] at ht ⊢
                exact ih fm regs { st with ptrs := p, stack := stack' }
                  err hmax
                  (by show stack'.length = FDT_MAX_DEPTH
                      rw [hlen', hlen])
                  hdepth' ht

/-- A successful add never empties the region list. -/
lemma addAll_pos (m : Nat) :
    ∀ (evts : List AddEvt) (regs regs' : List FdtRegion),
    addAll m evts regs = some regs' → 1 ≤ regs.length → 1 ≤ regs'.length := by
  intro evts
  induction evts with
  | nil =>
    intro regs regs' h hp
    simp only [addAll, Option.some.injEq] at h
    subst h
    exact hp
  | cons e evts ih =>
    intro regs regs' h hp
    obtain ⟨off, sz, cm⟩ := e
    simp only [addAll] at h
    cases hadd : fdt_add_region m cm regs off sz with
    | none => rw [hadd] at h; exact absurd h (by simp)
    | some regs1 =>
      rw [hadd] at h
      exact ih regs1 regs' h (fdt_add_region_some_length m cm regs off sz regs1 hadd).1

/-- Applying at least one add yields a nonempty region list. -/
lemma addAll_cons_pos (m : Nat) (e : AddEvt) (evts : List AddEvt)
    (regs regs' : List FdtRegion)
    (h : addAll m (e :: evts) regs = some regs') : 1 ≤ regs'.length := by
  obtain ⟨off, sz, cm⟩ := e
  simp only [addAll] at h
  cases hadd : fdt_add_region m cm regs off sz with
  | none => rw [hadd] at h; exact absurd h (by simp)
  | some regs1 =>
    rw [hadd] at h
    exact addAll_pos m evts regs1 regs' h (fdt_add_region_some_length m cm regs off sz regs1 hadd).1

/-- A finished struct-walk trace ends with the struct phase done. -/
lemma loop_trace_done_ge (blob : FdtBlob) (hinc : HInclude) (flags : FdtRegFlags)
    (pathLen : Nat) :
    ∀ (ftr : Nat) (st : FdtRegionState) (evts : List AddEvt) (stT : FdtRegionState),
    fdt_loop_trace blob hinc flags pathLen ftr st = .finished evts stT →
    FDT_DONE_STRUCT ≤ stT.ptrs.done := by
  intro ftr
  induction ftr with
  | zero =>
    intro st evts stT ht
    rw [fdt_loop_trace] at ht
    split at ht
    · exact absurd ht (by simp)
    · rename_i hdone
      obtain ⟨h1, h2⟩ := TraceLoopOut.finished.inj ht
      subst h2
      omega
  | succ ftr ih =>
    intro st evts stT ht
    by_cases hdone : st.ptrs.done < FDT_DONE_STRUCT
    case neg =>
      rw [fdt_loop_trace, if_neg hdone] at ht
      obtain ⟨h1, h2⟩ := TraceLoopOut.finished.inj ht
      subst h2
      omega
    case pos =>
      rw [fdt_loop_trace] at ht
      simp only [if_pos hdone] at ht
      cases hnt : fdt_next_tag blob.items st.ptrs.nextoffset with
      | none => simp only [hnt] at ht; exact absurd ht (by simp)
      | some pr =>
        obtain ⟨tag, next⟩ := pr
        simp only [hnt] at ht
        cases hsw : fdt_region_switch flags pathLen hinc st.stack
            { st.ptrs with nextoffset := next } st.ptrs.nextoffset next tag with
        | fail e => simp only [hsw] at ht; exact absurd ht (by simp)
        | cont p stack' inc stopAt =>
          simp only [hsw] at ht
          by_cases hc1 : inc = true ∧ st.start = -1
          · rw [if_pos hc1] at ht
            by_cases hsup : flags.supernodes = true
            · rw [if_pos hsup] at ht
              cases hsupt : fdt_sup_trace blob (p.depth + 1).toNat 0 stack'
                  st.can_merge with
              | none => simp only [hsupt] at ht; exact absurd ht (by simp)
              | some tr =>
                obtain ⟨evtsS, stack2, cm2⟩ := tr
                simp only [hsupt] at ht
                cases hin : fdt_loop_trace blob hinc flags pathLen ftr
                    { st with can_merge := cm2,
                              start := (st.ptrs.nextoffset : Int),
                              ptrs := p, stack := stack2 } with
                | fail e => simp only [hin] at ht; exact absurd ht (by simp)
                | noFuel => simp only [hin] at ht; exact absurd ht (by simp)
                | finished evts1 stT1 =>
                  simp only [hin] at ht
                  obtain ⟨h1, h2⟩ := TraceLoopOut.finished.inj ht
                  subst h2
                  exact ih _ _ _ hin
            · rw [if_neg hsup] at ht
              exact ih _ _ _ ht
          · rw [if_neg hc1] at ht
            by_cases hc2 : ¬inc = true ∧ st.start ≠ -1
            · rw [if_pos hc2] at ht
              cases hin : fdt_loop_trace blob hinc flags pathLen ftr
                  { st with can_merge := true, start := -1,
                            ptrs := p, stack := stack' } with
              | fail e => simp only [hin] at ht; exact absurd ht (by simp)
              | noFuel => simp only [hin] at ht; exact absurd ht (by simp)
              | finished evts1 stT1 =>
                simp only [hin] at ht
                obtain ⟨h1, h2⟩ := TraceLoopOut.finished.inj ht
                subst h2
                exact ih _ _ _ hin
            · rw [if_neg hc2] at ht
              exact ih _ _ _ ht

/-- A paused struct walk never decreases the done phase marker. -/
lemma struct_loop_pause_done (blob : FdtBlob) (hinc : HInclude)
    (flags : FdtRegFlags) (pathLen : Nat) :
    ∀ (fm : Nat) (regs : List FdtRegion) (st : FdtRegionState)
      (regsP : List FdtRegion) (stP : FdtRegionState),
    st.ptrs.depth < (FDT_MAX_DEPTH : Int) →
    fdt_struct_loop blob hinc flags pathLen fm regs st = .paused regsP stP →
    st.ptrs.done ≤ stP.ptrs.done := by
  intro fm
  induction fm with
  | zero =>
    intro regs st regsP stP hdepth h
    rw [fdt_struct_loop] at h
    split at h
    · exact absurd h (by simp)
    · exact absurd h (by simp)
  | succ fm ih =>
    intro regs st regsP stP hdepth h
    by_cases hdone : st.ptrs.done < FDT_DONE_STRUCT
    case neg =>
      rw [fdt_struct_loop, if_neg hdone] at h
      exact absurd h (by simp)
    case pos =>
      rw [fdt_struct_loop] at h
      simp only [if_pos hdone] at h
      cases hnt : fdt_next_tag blob.items st.ptrs.nextoffset with
      | none => simp only [hnt] at h; exact absurd h (by simp)
      | some pr =>
        obtain ⟨tag, next⟩ := pr
        simp only [hnt] at h
        cases hsw : fdt_region_switch flags pathLen hinc st.stack
            { st.ptrs with nextoffset := next } st.ptrs.nextoffset next tag with
        | fail e => simp only [hsw] at h; exact absurd h (by simp)
        | cont p stack' inc stopAt =>
          simp only [hsw, fdt_include_supernodes] at h
          obtain ⟨hlen', hdepth', hnext', hdone'⟩ :=
            switch_inv flags pathLen hinc st.stack stack' _ p _ next tag inc stopAt hsw hdepth
          have hd2 : p.done = st.ptrs.done ∨ p.done = FDT_DONE_STRUCT := hdone'
          have hds : FDT_DONE_STRUCT = 2 := rfl
          by_cases hc1 : inc = true ∧ st.start = -1
          · rw [if_pos hc1] at h
            by_cases hsup : flags.supernodes = true
            · rw [if_pos hsup] at h
              cases hgo : fdt_include_supernodes_go blob st.max_regions
                  (p.depth + 1).toNat 0 regs stack' st.can_merge with
              | bad => simp only [hgo] at h; exact absurd h (by simp)
              | paused regsS stackS cmS =>
                simp only [hgo] at h
                obtain ⟨h1, h2⟩ := LoopOut.paused.inj h
                subst h2
                exact le_refl _
              | done regsS stackS cmS =>
                simp only [hgo] at h
                have := ih regsS
                  { st with can_merge := cmS,
                            start := (st.ptrs.nextoffset : Int),
                            ptrs := p, stack := stackS } regsP stP hdepth' h
                have h3 : p.done ≤ stP.ptrs.done := this
                rw [hds] at hd2
                rcases hd2 with hd2 | hd2 <;> omega
            · rw [if_neg hsup] at h
              have := ih regs
                { st with start := (st.ptrs.nextoffset : Int),
                          ptrs := p, stack := stack' } regsP stP hdepth' h
              have h3 : p.done ≤ stP.ptrs.done := this
              rw [hds] at hd2
              rcases hd2 with hd2 | hd2 <;> omega
          · rw [if_neg hc1] at h
            by_cases hc2 : ¬inc = true ∧ st.start ≠ -1
            · rw [if_pos hc2] at h
              cases hadd : fdt_add_region st.max_regions st.can_merge regs
                  ((blob.off_dt_struct : Int) + st.start)
                  ((stopAt : Int) - st.start) with
              | none =>
                simp only [hadd] at h
                obtain ⟨h1, h2⟩ := LoopOut.paused.inj h
                subst h2
                exact le_refl _
              | some regs' =>
                simp only [hadd] at h
                have := ih regs'
                  { st with can_merge := true, start := -1,
                            ptrs := p, stack := stack' } regsP stP hdepth' h
                have h3 : p.done ≤ stP.ptrs.done := this
                rw [hds] at hd2
                rcases hd2 with hd2 | hd2 <;> omega
            · rw [if_neg hc2] at h
              have := ih regs { st with ptrs := p, stack := stack' } regsP stP hdepth' h
              have h3 : p.done ≤ stP.ptrs.done := this
              rw [hds] at hd2
              rcases hd2 with hd2 | hd2 <;> omega
